import Mathlib

/-
Verification of the terraAnalyser core (src/app.py): the structural diff
engine (`find_differences` / `get_the_differences`) and the change
classification pipeline (`change_details` / `analyse_plan`).

The Python values flowing through the diff engine are decoded JSON trees:
insertion-ordered mappings with string keys, ordered sequences, and scalars.
Python is dynamically typed, so `find_differences` may also receive a value of
a kind it does not recognise; such values fall through to the final `else`
branch and are compared with `!=`.  The constructor `Value.other` models those
unrecognised values, with a numeric tag standing for object identity.

`Value` is a mutual inductive (mappings hold `Fields`, sequences hold `Elems`)
so that size and evaluation are structurally recursive; `Fields.toList` /
`Elems.toList` expose the underlying association list / element list.

Python set iteration order (used for `after_keys - before_keys` and
`before_keys & after_keys`) is unspecified and content-determined; it is
modelled as sorted order, a deterministic function of the set.
-/

namespace TerraAnalyser

/-- Leaf (scalar) values of a decoded JSON tree: string, number, boolean, null. -/
inductive Scalar where
  | str : String → Scalar
  | num : Int → Scalar
  | bool : Bool → Scalar
  | null : Scalar
deriving DecidableEq

mutual
/-- A tree-shaped Python value: mapping, ordered sequence, scalar, or a value
of a kind the diff engine does not classify (`other`, tagged by identity). -/
inductive Value where
  | dict : Fields → Value
  | list : Elems → Value
  | scalar : Scalar → Value
  | other : Nat → Value

/-- The entries of an insertion-ordered mapping. -/
inductive Fields where
  | nil : Fields
  | cons : String → Value → Fields → Fields

/-- The elements of an ordered sequence. -/
inductive Elems where
  | nil : Elems
  | cons : Value → Elems → Elems
end

/-- The entries of a mapping, as an association list in insertion order. -/
def Fields.toList : Fields → List (String × Value)
  | Fields.nil => []
  | Fields.cons k v rest => (k, v) :: rest.toList

/-- The elements of a sequence, as a list. -/
def Elems.toList : Elems → List Value
  | Elems.nil => []
  | Elems.cons v rest => v :: rest.toList

mutual
/-- Structural size of a value, used as recursion fuel for the diff engine. -/
def Value.size : Value → Nat
  | Value.dict fs => 1 + Fields.size fs
  | Value.list es => 1 + Elems.size es
  | Value.scalar _ => 1
  | Value.other _ => 1

/-- Structural size of mapping entries. -/
def Fields.size : Fields → Nat
  | Fields.nil => 0
  | Fields.cons _ v rest => 1 + Value.size v + Fields.size rest

/-- Structural size of sequence elements. -/
def Elems.size : Elems → Nat
  | Elems.nil => 0
  | Elems.cons v rest => 1 + Value.size v + Elems.size rest
end

/-- Python `==` on scalars: `True == 1` and `False == 0` hold because `bool`
is a subclass of `int`; scalars of different kinds are otherwise unequal. -/
def scalarEq : Scalar → Scalar → Bool
  | Scalar.str a, Scalar.str b => a = b
  | Scalar.num a, Scalar.num b => a = b
  | Scalar.bool a, Scalar.bool b => a = b
  | Scalar.bool a, Scalar.num b => (if a then (1 : Int) else 0) = b
  | Scalar.num a, Scalar.bool b => a = (if b then (1 : Int) else 0)
  | Scalar.null, Scalar.null => true
  | _, _ => false

/-- Python `==` as exercised by the fallback branch of `find_differences`,
which only ever compares pairs that are not both mappings and not both
sequences: values of different kinds are unequal (modulo the bool/int
conflation inside `scalarEq`), and unrecognised values compare by identity. -/
def pyEq : Value → Value → Bool
  | Value.scalar s, Value.scalar t => scalarEq s t
  | Value.other m, Value.other n => m = n
  | _, _ => false

/-- Python truthiness of a decoded value: empty containers, empty strings,
zero, `False` and `None` are falsy. -/
def truthy : Value → Bool
  | Value.dict fs => !(fs.toList.isEmpty)
  | Value.list es => !(es.toList.isEmpty)
  | Value.scalar (Scalar.str s) => !(s = "")
  | Value.scalar (Scalar.num n) => !(n = 0)
  | Value.scalar (Scalar.bool b) => b
  | Value.scalar Scalar.null => false
  | Value.other _ => true

/-! ### Association lists (Python dicts) -/

/-- Lookup in an insertion-ordered mapping (`d[k]` / `d.get(k)`). -/
def get? {α : Type} : List (String × α) → String → Option α
  | [], _ => none
  | (k, v) :: rest, key => if k = key then some v else get? rest key

/-- Lookup with a default (`d.get(k, dflt)`). -/
def getD {α : Type} (ps : List (String × α)) (k : String) (d : α) : α :=
  (get? ps k).getD d

/-- The key list of a mapping, in insertion order. -/
def keys {α : Type} (ps : List (String × α)) : List String :=
  ps.map Prod.fst

/-- Python `d[k] = v`: overwrite in place if the key exists, else append. -/
def dictInsert {α : Type} : List (String × α) → String → α → List (String × α)
  | [], k, v => [(k, v)]
  | (k', v') :: rest, k, v =>
      if k' = k then (k', v) :: rest else (k', v') :: dictInsert rest k v

/-- Python `d.update(e)`: insert every entry of `e` into `d`, in order. -/
def dictUpdate {α : Type} (ps qs : List (String × α)) : List (String × α) :=
  qs.foldl (fun acc kv => dictInsert acc kv.1 kv.2) ps

/-! ### Set iteration (Python `set` operations on key views) -/

/-- Canonical (sorted) iteration order of a set of strings. -/
def sortKeys (l : List String) : List String :=
  List.insertionSort (· ≤ ·) l

/-- `xs - ys` on key sets, iterated in canonical order. -/
def setDiff (xs ys : List String) : List String :=
  sortKeys (xs.dedup.filter (fun k => !ys.contains k))

/-- `xs & ys` on key sets, iterated in canonical order. -/
def interKeys (xs ys : List String) : List String :=
  sortKeys (xs.dedup.filter (fun k => ys.contains k))

/-! ### Path strings -/

/-- Python `str.strip(".")`: remove every leading and trailing `'.'`. -/
def stripDots (s : String) : String :=
  ⟨((s.data.dropWhile (fun c => c = '.')).reverse.dropWhile (fun c => c = '.')).reverse⟩

/-- The decimal digit character of `d` (for `d < 10`). -/
def digitChar : Nat → Char
  | 0 => '0' | 1 => '1' | 2 => '2' | 3 => '3' | 4 => '4'
  | 5 => '5' | 6 => '6' | 7 => '7' | 8 => '8' | _ => '9'

/-- Decimal digits of `n`, most significant first; `fuel` bounds recursion
depth (any `fuel > n` is enough). -/
def natChars : Nat → Nat → List Char
  | 0, _ => []
  | fuel + 1, n =>
      if n < 10 then [digitChar n] else natChars fuel (n / 10) ++ [digitChar (n % 10)]

/-- Python `str(i)` for a list index: decimal representation of a natural. -/
def natStr (n : Nat) : String :=
  ⟨natChars (n + 1) n⟩

/-! ### The Difference Set and the diff engine -/

/-- The Difference Set: three path-keyed mappings.  A `changed` entry carries
the `{"before": _, "after": _}` pair. -/
structure Diff where
  added : List (String × Value)
  removed : List (String × Value)
  changed : List (String × (Value × Value))

/-- The all-empty Difference Set (the freshly initialised `differences`). -/
def emptyDiff : Diff := ⟨[], [], []⟩

/-- Merge a recursive result into the accumulated one: the three
`differences[...].update(sub_diff[...])` calls. -/
def mergeDiff (acc sub : Diff) : Diff :=
  { added := dictUpdate acc.added sub.added
    removed := dictUpdate acc.removed sub.removed
    changed := dictUpdate acc.changed sub.changed }

/-- Placeholder value for lookups that cannot miss (`d[k]` with `k` known to
be present). -/
def nullV : Value := Value.scalar Scalar.null

/-- One unfolding of `find_differences`, with `rec` in recursive positions.
Mirrors the source case by case: both mappings, both sequences, fallback. -/
def fdStep (rec : Value → Value → String → Diff) : Value → Value → String → Diff
  | Value.dict bfs, Value.dict afs, path =>
      let bl := bfs.toList
      let al := afs.toList
      let base : Diff :=
        { added := (setDiff (keys al) (keys bl)).foldl
            (fun acc k => dictInsert acc (stripDots (path ++ "." ++ k)) (getD al k nullV)) []
          removed := (setDiff (keys bl) (keys al)).foldl
            (fun acc k => dictInsert acc (stripDots (path ++ "." ++ k)) (getD bl k nullV)) []
          changed := [] }
      (interKeys (keys bl) (keys al)).foldl
        (fun acc k =>
          mergeDiff acc (rec (getD bl k nullV) (getD al k nullV) (stripDots (path ++ "." ++ k))))
        base
  | Value.list bes, Value.list aes, path =>
      let bl := bes.toList
      let al := aes.toList
      let base := (bl.zip al).enum.foldl
        (fun acc x => mergeDiff acc (rec x.2.1 x.2.2 (path ++ "[" ++ natStr x.1 ++ "]")))
        emptyDiff
      if bl.length < al.length then
        let tailAdded := (List.range' bl.length (al.length - bl.length)).foldl
          (fun acc i => dictInsert acc (stripDots (path ++ "[" ++ natStr i ++ "]")) (al.getD i nullV))
          base.added
        { base with added := tailAdded }
      else if al.length < bl.length then
        let tailRemoved := (List.range' al.length (bl.length - al.length)).foldl
          (fun acc i => dictInsert acc (stripDots (path ++ "[" ++ natStr i ++ "]")) (bl.getD i nullV))
          base.removed
        { base with removed := tailRemoved }
      else base
  | b, a, path =>
      if pyEq b a then emptyDiff else ⟨[], [], [(path, (b, a))]⟩

/-- `find_differences` with explicit recursion fuel; any fuel of at least
`Value.size before` computes the real function. -/
def fdAux : Nat → Value → Value → String → Diff
  | 0, _, _, _ => emptyDiff
  | n + 1, b, a, p => fdStep (fdAux n) b a p

/-- `find_differences(before, after, path)` from src/app.py: the recursive
structural diff. -/
def find_differences (before after : Value) (path : String) : Diff :=
  fdAux (Value.size before) before after path

/-- `get_the_differences(before, after)` from src/app.py: the entry point,
returning `None` when all three mappings are empty. -/
def get_the_differences (before after : Value) : Option Diff :=
  let differences := find_differences before after ""
  if differences.added.isEmpty && differences.removed.isEmpty && differences.changed.isEmpty
    then none
    else some differences

/-! ### The change classifier -/

/-- The control actions of `change_details`. -/
def control_actions : List String := ["create", "delete", "update", "replace"]

/-- The `differences` field of a normalized result record: Python `None`
(from `get_the_differences` on an empty diff), the literal empty object `{}`
(non-control branch), or a populated Difference Set. -/
inductive DiffField where
  | null : DiffField
  | emptyObj : DiffField
  | set : Diff → DiffField

/-- A normalized result record, as built by `change_details`. -/
structure Resource where
  name : Option String
  type : Option String
  actions : List String
  before : Value
  after : Value
  dependencies : Value
  differences : DiffField

/-- An input entity-change record.  `name`/`type` are the top-level fields;
`actions`, `before`, `after`, `dependencies` live in the nested `"change"`
object.  `none` models an absent key (so the `change.get(...)` defaults
apply); a present JSON `null` is `some (Value.scalar Scalar.null)`. -/
structure Change where
  name : Option String
  type : Option String
  actions : List String
  before : Option Value
  after : Option Value
  dependencies : Option Value

/-- `change_details(change, action)` from src/app.py.  The source reads
`action[0]`, which presupposes a non-empty action list (`analyse_plan` only
calls it with one); an empty list is modelled by the out-of-vocabulary token
`""`, which no claim exercises. -/
def change_details (change : Change) (action : List String) : Resource :=
  if (action.headD "") ∈ control_actions then
    let resource_before := change.before.getD (Value.dict Fields.nil)
    let resource_after := change.after.getD (Value.dict Fields.nil)
    { name := change.name
      type := change.type
      actions := change.actions
      before := if truthy resource_before then resource_before else Value.dict Fields.nil
      after := if truthy resource_after then resource_after else Value.dict Fields.nil
      dependencies := change.dependencies.getD (Value.dict Fields.nil)
      differences :=
        match get_the_differences resource_before resource_after with
        | some d => DiffField.set d
        | none => DiffField.null }
  else
    { name := change.name
      type := change.type
      actions := change.actions
      before := Value.dict Fields.nil
      after := Value.dict Fields.nil
      dependencies := change.dependencies.getD (Value.dict Fields.nil)
      differences := DiffField.emptyObj }

/-- The running totals of `analyse_plan`. -/
structure Summary where
  create : Nat
  update : Nat
  delete : Nat
  replace : Nat
  no_op : Nat

/-- The six category buckets of `analyse_plan`. -/
structure ChangesDict where
  create_and_delete : List Resource
  create : List Resource
  update : List Resource
  delete : List Resource
  replace : List Resource
  no_op : List Resource

/-- The body of the `for change in changes` loop of `analyse_plan`: the five
membership tests, in source order. -/
def processChange (acc : ChangesDict × Summary) (change : Change) : ChangesDict × Summary :=
  let action := change.actions
  let acc1 :=
    if "create" ∈ action then
      (if "delete" ∈ action then
        { acc.1 with create_and_delete := acc.1.create_and_delete ++ [change_details change action] }
       else
        { acc.1 with create := acc.1.create ++ [change_details change action] },
       { acc.2 with create := acc.2.create + 1 })
    else acc
  let acc2 :=
    if "update" ∈ action then
      ({ acc1.1 with update := acc1.1.update ++ [change_details change action] },
       { acc1.2 with update := acc1.2.update + 1 })
    else acc1
  let acc3 :=
    if "delete" ∈ action then
      (if "create" ∈ action then acc2.1
       else { acc2.1 with delete := acc2.1.delete ++ [change_details change action] },
       { acc2.2 with delete := acc2.2.delete + 1 })
    else acc2
  let acc4 :=
    if "replace" ∈ action then
      ({ acc3.1 with replace := acc3.1.replace ++ [change_details change action] },
       { acc3.2 with replace := acc3.2.replace + 1 })
    else acc3
  if "no-op" ∈ action then
    ({ acc4.1 with no_op := acc4.1.no_op ++ [change_details change action] },
     { acc4.2 with no_op := acc4.2.no_op + 1 })
  else acc4

/-- `analyse_plan(plan, type_of_change)` from src/app.py.  The plan is its
section map; a section is a list of entity-change records.  Returns `none`
("no changes detected") when the selected section is empty or absent. -/
def analyse_plan (plan : List (String × List Change)) (type_of_change : String) :
    Option (ChangesDict × Summary) :=
  let changes := getD plan type_of_change []
  let summary : Summary := ⟨0, 0, 0, 0, 0⟩
  let changes_dict : ChangesDict := ⟨[], [], [], [], [], []⟩
  if changes.isEmpty then none
  else some (changes.foldl processChange (changes_dict, summary))

/-! ## Basic lemmas: association lists -/

theorem get?_mem {α : Type} {ps : List (String × α)} {k : String} {v : α}
    (h : get? ps k = some v) : (k, v) ∈ ps := by
  induction ps with
  | nil => simp [get?] at h
  | cons kv rest ih =>
      obtain ⟨k', v'⟩ := kv
      by_cases hk : k' = k
      · subst hk
        simp [get?] at h
        simp [h]
      · simp [get?, hk] at h
        exact List.mem_cons_of_mem _ (ih h)

theorem get?_isSome_of_mem_keys {α : Type} {ps : List (String × α)} {k : String}
    (h : k ∈ keys ps) : ∃ v, get? ps k = some v := by
  induction ps with
  | nil => simp [keys] at h
  | cons kv rest ih =>
      obtain ⟨k', v'⟩ := kv
      by_cases hk : k' = k
      · exact ⟨v', by simp [get?, hk]⟩
      · simp [keys] at h
        rcases h with h | h
        · exact absurd h.symm hk
        · simpa [get?, hk] using ih (by simpa [keys] using h)

theorem get?_eq_none_of_not_mem_keys {α : Type} {ps : List (String × α)} {k : String}
    (h : k ∉ keys ps) : get? ps k = none := by
  induction ps with
  | nil => rfl
  | cons kv rest ih =>
      obtain ⟨k', v'⟩ := kv
      simp [keys] at h
      push_neg at h
      have hk : ¬ k' = k := fun hkk => h.1 hkk.symm
      simp [get?, hk, ih (by simpa [keys] using h.2)]

theorem mem_keys_of_mem {α : Type} {ps : List (String × α)} {k : String} {v : α}
    (h : (k, v) ∈ ps) : k ∈ keys ps := by
  simp only [keys, List.mem_map]
  exact ⟨(k, v), h, rfl⟩

theorem getD_mem_of_mem_keys {α : Type} {ps : List (String × α)} {k : String} (d : α)
    (h : k ∈ keys ps) : (k, getD ps k d) ∈ ps := by
  obtain ⟨v, hv⟩ := get?_isSome_of_mem_keys h
  simpa [getD, hv] using get?_mem hv

/-! ## Basic lemmas: set iteration -/

theorem mem_setDiff {xs ys : List String} {k : String} :
    k ∈ setDiff xs ys ↔ k ∈ xs ∧ k ∉ ys := by
  simp [setDiff, sortKeys, List.mem_insertionSort, List.mem_filter, List.mem_dedup]

theorem mem_interKeys {xs ys : List String} {k : String} :
    k ∈ interKeys xs ys ↔ k ∈ xs ∧ k ∈ ys := by
  simp [interKeys, sortKeys, List.mem_insertionSort, List.mem_filter, List.mem_dedup]

theorem nodup_setDiff (xs ys : List String) : (setDiff xs ys).Nodup :=
  ((List.perm_insertionSort _ _).nodup_iff).mpr ((xs.nodup_dedup).filter _)

theorem nodup_interKeys (xs ys : List String) : (interKeys xs ys).Nodup :=
  ((List.perm_insertionSort _ _).nodup_iff).mpr ((xs.nodup_dedup).filter _)

/-- Sorted canonical iteration is a function of the set: two deduplicated
lists with the same members sort to the same list. -/
theorem sortKeys_eq_of_mem_iff {xs ys : List String}
    (hx : xs.Nodup) (hy : ys.Nodup) (h : ∀ k, k ∈ xs ↔ k ∈ ys) :
    sortKeys xs = sortKeys ys := by
  apply List.eq_of_perm_of_sorted
    (((List.perm_insertionSort _ xs).trans
      ((List.perm_ext_iff_of_nodup hx hy).mpr h)).trans
        (List.perm_insertionSort _ ys).symm)
    (List.sorted_insertionSort _ xs) (List.sorted_insertionSort _ ys)

/-! ## Basic lemmas: sizes and fuel -/

theorem Value.one_le_size (v : Value) : 1 ≤ v.size := by
  cases v <;> simp [Value.size]

theorem size_le_of_mem_fields : ∀ {fs : Fields} {k : String} {v : Value},
    (k, v) ∈ fs.toList → v.size ≤ Fields.size fs
  | Fields.nil, _, _, h => by simp [Fields.toList] at h
  | Fields.cons k' v' rest, k, v, h => by
      simp [Fields.toList] at h
      rcases h with ⟨hk, hv⟩ | h
      · subst hv; simp [Fields.size]; omega
      · have := size_le_of_mem_fields h
        simp [Fields.size]; omega

theorem size_le_of_mem_elems : ∀ {es : Elems} {v : Value},
    v ∈ es.toList → v.size ≤ Elems.size es
  | Elems.nil, _, h => by simp [Elems.toList] at h
  | Elems.cons v' rest, v, h => by
      simp [Elems.toList] at h
      rcases h with h | h
      · subst h; simp [Elems.size]; omega
      · have := size_le_of_mem_elems h
        simp [Elems.size]; omega

theorem size_getD_lt_dict {bfs : Fields} {k : String}
    (h : k ∈ keys bfs.toList) : (getD bfs.toList k nullV).size < (Value.dict bfs).size := by
  have hm := getD_mem_of_mem_keys nullV h
  have := size_le_of_mem_fields hm
  simp [Value.size]; omega

theorem size_lt_list {bes : Elems} {v : Value}
    (h : v ∈ bes.toList) : v.size < (Value.list bes).size := by
  have := size_le_of_mem_elems h
  simp [Value.size]; omega

/-- Congruence for `foldl` with functions that agree on list members. -/
theorem foldl_congr_mem {α β : Type _} : ∀ {l : List α} {f g : β → α → β} {init : β},
    (∀ acc x, x ∈ l → f acc x = g acc x) → l.foldl f init = l.foldl g init := by
  intro l
  induction l with
  | nil => intros; rfl
  | cons x xs ih =>
      intro f g init h
      simp only [List.foldl_cons]
      rw [h init x (by simp)]
      exact ih fun acc y hy => h acc y (by simp [hy])

/-- `fdStep` only calls `rec` on values structurally smaller than `before`. -/
theorem fdStep_congr {f g : Value → Value → String → Diff} (b a : Value) (p : String)
    (h : ∀ b' a' p', b'.size < b.size → f b' a' p' = g b' a' p') :
    fdStep f b a p = fdStep g b a p := by
  cases b with
  | dict bfs =>
      cases a with
      | dict afs =>
          simp only [fdStep]
          apply foldl_congr_mem
          intro acc k hk
          have hkb : k ∈ keys bfs.toList := (mem_interKeys.mp hk).1
          rw [h _ _ _ (size_getD_lt_dict hkb)]
      | list _ => rfl
      | scalar _ => rfl
      | other _ => rfl
  | list bes =>
      cases a with
      | dict _ => rfl
      | list aes =>
          simp only [fdStep]
          have hbase :
              (((bes.toList.zip aes.toList).enum).foldl
                (fun acc x => mergeDiff acc (f x.2.1 x.2.2 (p ++ "[" ++ natStr x.1 ++ "]")))
                emptyDiff) =
              (((bes.toList.zip aes.toList).enum).foldl
                (fun acc x => mergeDiff acc (g x.2.1 x.2.2 (p ++ "[" ++ natStr x.1 ++ "]")))
                emptyDiff) := by
            apply foldl_congr_mem
            intro acc x hx
            have hx2 : x.2 ∈ bes.toList.zip aes.toList := by
              have := List.mem_enum_iff_getElem?.mp hx
              exact List.getElem?_mem this
            have hb : x.2.1 ∈ bes.toList := (List.of_mem_zip hx2).1
            rw [h _ _ _ (size_lt_list hb)]
          rw [hbase]
      | scalar _ => rfl
      | other _ => rfl
  | scalar _ => rfl
  | other _ => rfl

/-- Fuel irrelevance: any fuel of at least `Value.size before` computes the
same result. -/
theorem fdAux_congr : ∀ (n m : Nat) (b a : Value) (p : String),
    b.size ≤ n → b.size ≤ m → fdAux n b a p = fdAux m b a p := by
  intro n
  induction n with
  | zero => intro m b a p hn; exact absurd hn (by have := Value.one_le_size b; omega)
  | succ n ih =>
      intro m b a p hn hm
      have h1 := Value.one_le_size b
      obtain ⟨m', rfl⟩ : ∃ m', m = m' + 1 := ⟨m - 1, by omega⟩
      simp only [fdAux]
      apply fdStep_congr
      intro b' a' p' hlt
      exact ih m' b' a' p' (by omega) (by omega)

/-- The defining fixed-point equation of `find_differences`. -/
theorem find_differences_eq (b a : Value) (p : String) :
    find_differences b a p = fdStep find_differences b a p := by
  unfold find_differences
  have h1 := Value.one_le_size b
  obtain ⟨n, hn⟩ : ∃ n, Value.size b = n + 1 := ⟨Value.size b - 1, by omega⟩
  rw [hn]
  simp only [fdAux]
  apply fdStep_congr
  intro b' a' p' hlt
  exact fdAux_congr n (Value.size b') b' a' p' (by omega) le_rfl

/-! ## Classifier step characterization -/

theorem processChange_cad_list (acc : ChangesDict × Summary) (c : Change) :
    (processChange acc c).1.create_and_delete =
      (if "create" ∈ c.actions ∧ "delete" ∈ c.actions
        then acc.1.create_and_delete ++ [change_details c c.actions]
        else acc.1.create_and_delete) := by
  simp only [processChange]
  split_ifs <;> simp_all

theorem processChange_create_list (acc : ChangesDict × Summary) (c : Change) :
    (processChange acc c).1.create =
      (if "create" ∈ c.actions ∧ "delete" ∉ c.actions
        then acc.1.create ++ [change_details c c.actions]
        else acc.1.create) := by
  simp only [processChange]
  split_ifs <;> simp_all

theorem processChange_update_list (acc : ChangesDict × Summary) (c : Change) :
    (processChange acc c).1.update =
      (if "update" ∈ c.actions
        then acc.1.update ++ [change_details c c.actions]
        else acc.1.update) := by
  simp only [processChange]
  split_ifs <;> simp_all

theorem processChange_delete_list (acc : ChangesDict × Summary) (c : Change) :
    (processChange acc c).1.delete =
      (if "delete" ∈ c.actions ∧ "create" ∉ c.actions
        then acc.1.delete ++ [change_details c c.actions]
        else acc.1.delete) := by
  simp only [processChange]
  split_ifs <;> simp_all

theorem processChange_replace_list (acc : ChangesDict × Summary) (c : Change) :
    (processChange acc c).1.replace =
      (if "replace" ∈ c.actions
        then acc.1.replace ++ [change_details c c.actions]
        else acc.1.replace) := by
  simp only [processChange]
  split_ifs <;> simp_all

theorem processChange_noop_list (acc : ChangesDict × Summary) (c : Change) :
    (processChange acc c).1.no_op =
      (if "no-op" ∈ c.actions
        then acc.1.no_op ++ [change_details c c.actions]
        else acc.1.no_op) := by
  simp only [processChange]
  split_ifs <;> simp_all

theorem processChange_create_count (acc : ChangesDict × Summary) (c : Change) :
    (processChange acc c).2.create =
      (if "create" ∈ c.actions then acc.2.create + 1 else acc.2.create) := by
  simp only [processChange]
  split_ifs <;> simp_all

theorem processChange_update_count (acc : ChangesDict × Summary) (c : Change) :
    (processChange acc c).2.update =
      (if "update" ∈ c.actions then acc.2.update + 1 else acc.2.update) := by
  simp only [processChange]
  split_ifs <;> simp_all

theorem processChange_delete_count (acc : ChangesDict × Summary) (c : Change) :
    (processChange acc c).2.delete =
      (if "delete" ∈ c.actions then acc.2.delete + 1 else acc.2.delete) := by
  simp only [processChange]
  split_ifs <;> simp_all

theorem processChange_replace_count (acc : ChangesDict × Summary) (c : Change) :
    (processChange acc c).2.replace =
      (if "replace" ∈ c.actions then acc.2.replace + 1 else acc.2.replace) := by
  simp only [processChange]
  split_ifs <;> simp_all

theorem processChange_noop_count (acc : ChangesDict × Summary) (c : Change) :
    (processChange acc c).2.no_op =
      (if "no-op" ∈ c.actions then acc.2.no_op + 1 else acc.2.no_op) := by
  simp only [processChange]
  split_ifs <;> simp_all

/-- C6: a record whose first action token is `no-op` is non-control (empty
`before`/`after`, the literal `{}` as differences, hence no diff computed). -/
theorem change_details_non_control (c : Change) (action : List String)
    (h : action.headD "" ∉ control_actions) :
    change_details c action =
      { name := c.name, type := c.type, actions := c.actions
        before := Value.dict Fields.nil, after := Value.dict Fields.nil
        dependencies := c.dependencies.getD (Value.dict Fields.nil)
        differences := DiffField.emptyObj } := by
  unfold change_details
  rw [if_neg h]

/-- C6: a record with first action token `no-op` and a later `update` token is
classified as non-control — its normalized record has empty `before`/`after`
and carries the non-control `differences` object, so no diff is computed —
yet the classifier still increments the `update` counter and appends the
record to the `update` bucket. -/
theorem C6_noop_first_update_later (c : Change) (acc : ChangesDict × Summary)
    (hh : c.actions.headD "" = "no-op") (hu : "update" ∈ c.actions) :
    (change_details c c.actions).before = Value.dict Fields.nil
      ∧ (change_details c c.actions).after = Value.dict Fields.nil
      ∧ (change_details c c.actions).differences = DiffField.emptyObj
      ∧ (processChange acc c).1.update = acc.1.update ++ [change_details c c.actions]
      ∧ (processChange acc c).2.update = acc.2.update + 1 := by
  have hctl : c.actions.headD "" ∉ control_actions := by
    rw [hh]; decide
  have hcd := change_details_non_control c c.actions hctl
  refine ⟨by rw [hcd], by rw [hcd], by rw [hcd], ?_, ?_⟩
  · rw [processChange_update_list]; simp [hu]
  · rw [processChange_update_count]; simp [hu]

/-- A sample record with actions `["no-op", "update"]`. -/
def c6sample : Change :=
  { name := some "r", type := some "t", actions := ["no-op", "update"],
    before := some (Value.scalar (Scalar.num 1)), after := some (Value.scalar (Scalar.num 2)),
    dependencies := none }

/-- The empty classifier accumulator. -/
def emptyAcc : ChangesDict × Summary := (⟨[], [], [], [], [], []⟩, ⟨0, 0, 0, 0, 0⟩)

theorem C6_witness :
    (c6sample.actions.headD "" = "no-op" ∧ "update" ∈ c6sample.actions)
      ∧ ((change_details c6sample c6sample.actions).before = Value.dict Fields.nil
        ∧ (change_details c6sample c6sample.actions).differences = DiffField.emptyObj
        ∧ (processChange emptyAcc c6sample).2.update = emptyAcc.2.update + 1) := by
  have h := C6_noop_first_update_later c6sample emptyAcc (by decide) (by decide)
  exact ⟨⟨by decide, by decide⟩, h.1, h.2.2.1, h.2.2.2.2⟩

/-- C7: a record containing both `create` and `delete` goes to the
`create_and_delete` bucket, increments both counters, and is appended to
neither the plain `create` nor the plain `delete` list. -/
theorem C7_create_and_delete_record (c : Change) (acc : ChangesDict × Summary)
    (hc : "create" ∈ c.actions) (hd : "delete" ∈ c.actions) :
    (processChange acc c).1.create_and_delete
        = acc.1.create_and_delete ++ [change_details c c.actions]
      ∧ (processChange acc c).1.create = acc.1.create
      ∧ (processChange acc c).1.delete = acc.1.delete
      ∧ (processChange acc c).2.create = acc.2.create + 1
      ∧ (processChange acc c).2.delete = acc.2.delete + 1 := by
  rw [processChange_cad_list, processChange_create_list, processChange_delete_list,
    processChange_create_count, processChange_delete_count]
  simp [hc, hd]

/-- A sample record with actions `["create", "delete"]`. -/
def c7sample : Change :=
  { name := some "r", type := some "t", actions := ["create", "delete"],
    before := none, after := none, dependencies := none }

theorem C7_witness :
    ("create" ∈ c7sample.actions ∧ "delete" ∈ c7sample.actions)
      ∧ (processChange emptyAcc c7sample).1.create_and_delete
          = emptyAcc.1.create_and_delete ++ [change_details c7sample c7sample.actions]
      ∧ (processChange emptyAcc c7sample).2.create = emptyAcc.2.create + 1
      ∧ (processChange emptyAcc c7sample).1.create = emptyAcc.1.create := by
  have h := C7_create_and_delete_record c7sample emptyAcc (by decide) (by decide)
  exact ⟨⟨by decide, by decide⟩, h.1, h.2.2.2.1, h.2.1⟩

/-! ## C2: a batch consisting of one `no-op` record -/

/-- A sample record whose only action is `no-op`. -/
def noopSample : Change :=
  { name := some "r", type := some "t", actions := ["no-op"],
    before := none, after := none, dependencies := none }

/-- C2 counterexample: for the single-record batch whose only action token is
`no-op`, the `no_op` category list is not empty — it contains the normalized
record — contradicting "every one of the six category lists is empty". -/
theorem C2_counterexample :
    (analyse_plan [("resource_changes", [noopSample])] "resource_changes").map
        (fun x => x.1.no_op) = some [change_details noopSample ["no-op"]]
      ∧ [change_details noopSample ["no-op"]] ≠ ([] : List Resource) :=
  ⟨rfl, by simp⟩

/-- C2 (amended): a single-record batch with actions `["no-op"]` yields a
classification batch whose five other category lists are empty while the
`no_op` list holds exactly the one normalized record, and a summary with
`no_op = 1` and every other counter `0`. -/
theorem C2_noop_only_batch (c : Change) (toc : String) (h : c.actions = ["no-op"]) :
    analyse_plan [(toc, [c])] toc =
      some (⟨[], [], [], [], [], [change_details c ["no-op"]]⟩, ⟨0, 0, 0, 0, 1⟩) := by
  simp only [analyse_plan, getD, get?, if_pos, Option.getD_some, List.isEmpty_cons,
    Bool.false_eq_true, if_false, List.foldl_cons, List.foldl_nil]
  simp [processChange, h]

theorem C2_witness :
    noopSample.actions = ["no-op"]
      ∧ analyse_plan [("resource_changes", [noopSample])] "resource_changes" =
          some (⟨[], [], [], [], [], [change_details noopSample ["no-op"]]⟩, ⟨0, 0, 0, 0, 1⟩) :=
  ⟨rfl, C2_noop_only_batch noopSample "resource_changes" rfl⟩

/-! ## C3: shape of the `differences` field -/

/-- C3 counterexample: a non-control record's `differences` field is the
present-but-empty object `{}` — not the absent value — contradicting "the
differences field is absent (omitted), never a present-but-empty object". -/
theorem C3_counterexample :
    (change_details noopSample ["no-op"]).differences = DiffField.emptyObj
      ∧ DiffField.emptyObj ≠ DiffField.null :=
  ⟨rfl, fun h => nomatch h⟩

/-- C3 (amended): the `differences` field of a normalized record is the
absent value (`None`) exactly when the record is control and its computed
Difference Set has all three mappings empty; for a non-control record it is
instead the present-but-empty object `{}`. -/
theorem C3_differences_field_shape (c : Change) (action : List String) :
    ((change_details c action).differences = DiffField.null ↔
      ((action.headD "") ∈ control_actions
        ∧ (find_differences (c.before.getD (Value.dict Fields.nil))
            (c.after.getD (Value.dict Fields.nil)) "").added = []
        ∧ (find_differences (c.before.getD (Value.dict Fields.nil))
            (c.after.getD (Value.dict Fields.nil)) "").removed = []
        ∧ (find_differences (c.before.getD (Value.dict Fields.nil))
            (c.after.getD (Value.dict Fields.nil)) "").changed = []))
    ∧ ((change_details c action).differences = DiffField.emptyObj ↔
        (action.headD "") ∉ control_actions) := by
  by_cases hctl : (action.headD "") ∈ control_actions
  · unfold change_details
    rw [if_pos hctl]
    simp only [get_the_differences]
    cases hE : ((find_differences (c.before.getD (Value.dict Fields.nil))
        (c.after.getD (Value.dict Fields.nil)) "").added.isEmpty
      && (find_differences (c.before.getD (Value.dict Fields.nil))
        (c.after.getD (Value.dict Fields.nil)) "").removed.isEmpty
      && (find_differences (c.before.getD (Value.dict Fields.nil))
        (c.after.getD (Value.dict Fields.nil)) "").changed.isEmpty) with
    | true =>
        rw [if_pos (by simp [hE])]
        simp only [Bool.and_eq_true, List.isEmpty_iff] at hE
        constructor
        · constructor
          · intro hx; exact ⟨hctl, hE.1.1, hE.1.2, hE.2⟩
          · intro hx; rfl
        · constructor
          · intro hx; exact nomatch hx
          · intro hx; exact absurd hctl hx
    | false =>
        rw [if_neg (by simp [hE])]
        have hne : ¬((find_differences (c.before.getD (Value.dict Fields.nil))
              (c.after.getD (Value.dict Fields.nil)) "").added = []
            ∧ (find_differences (c.before.getD (Value.dict Fields.nil))
              (c.after.getD (Value.dict Fields.nil)) "").removed = []
            ∧ (find_differences (c.before.getD (Value.dict Fields.nil))
              (c.after.getD (Value.dict Fields.nil)) "").changed = []) := by
          rintro ⟨h1, h2, h3⟩
          rw [h1, h2, h3] at hE
          simp at hE
        constructor
        · constructor
          · intro hx; exact nomatch hx
          · intro hx; exact absurd ⟨hx.2.1, hx.2.2.1, hx.2.2.2⟩ hne
        · constructor
          · intro hx; exact nomatch hx
          · intro hx; exact absurd hctl hx
  · rw [change_details_non_control c action hctl]
    constructor
    · constructor
      · intro hx; exact nomatch hx
      · intro hx; exact absurd hx.1 hctl
    · constructor
      · intro hx; exact hctl
      · intro hx; rfl

/-! ## C10: counters equal bucket lengths -/

/-- The arithmetic link between summary counters and bucket lengths. -/
def countsInv (acc : ChangesDict × Summary) : Prop :=
  acc.2.update = acc.1.update.length
    ∧ acc.2.replace = acc.1.replace.length
    ∧ acc.2.no_op = acc.1.no_op.length
    ∧ acc.2.create = acc.1.create.length + acc.1.create_and_delete.length
    ∧ acc.2.delete = acc.1.delete.length + acc.1.create_and_delete.length

theorem processChange_countsInv (acc : ChangesDict × Summary) (c : Change)
    (h : countsInv acc) : countsInv (processChange acc c) := by
  obtain ⟨h1, h2, h3, h4, h5⟩ := h
  refine ⟨?_, ?_, ?_, ?_, ?_⟩
  · rw [processChange_update_count, processChange_update_list]
    by_cases hm : "update" ∈ c.actions <;> simp [hm, h1]
  · rw [processChange_replace_count, processChange_replace_list]
    by_cases hm : "replace" ∈ c.actions <;> simp [hm, h2]
  · rw [processChange_noop_count, processChange_noop_list]
    by_cases hm : "no-op" ∈ c.actions <;> simp [hm, h3]
  · rw [processChange_create_count, processChange_create_list, processChange_cad_list]
    by_cases hc : "create" ∈ c.actions <;> by_cases hd : "delete" ∈ c.actions <;>
      simp [hc, hd, h4] <;> omega
  · rw [processChange_delete_count, processChange_delete_list, processChange_cad_list]
    by_cases hc : "create" ∈ c.actions <;> by_cases hd : "delete" ∈ c.actions <;>
      simp [hc, hd, h5] <;> omega

theorem foldl_countsInv : ∀ (cs : List Change) (acc : ChangesDict × Summary),
    countsInv acc → countsInv (cs.foldl processChange acc)
  | [], _, h => h
  | c :: cs, acc, h => foldl_countsInv cs _ (processChange_countsInv acc c h)

/-- C10: after classification of a non-empty batch, the `update`, `replace`
and `no_op` counters equal the lengths of the same-named lists; the `create`
counter equals the length of the `create` list plus that of
`create_and_delete`; and the `delete` counter equals the length of the
`delete` list plus that of `create_and_delete`. -/
theorem C10_summary_counts_buckets (plan : List (String × List Change)) (toc : String)
    (d : ChangesDict) (s : Summary) (h : analyse_plan plan toc = some (d, s)) :
    s.update = d.update.length ∧ s.replace = d.replace.length ∧ s.no_op = d.no_op.length
      ∧ s.create = d.create.length + d.create_and_delete.length
      ∧ s.delete = d.delete.length + d.create_and_delete.length := by
  unfold analyse_plan at h
  by_cases he : (getD plan toc []).isEmpty
  · simp [he] at h
  · simp only [he, Bool.false_eq_true, if_false, Option.some.injEq] at h
    have hinv := foldl_countsInv (getD plan toc [])
      ((⟨[], [], [], [], [], []⟩ : ChangesDict), (⟨0, 0, 0, 0, 0⟩ : Summary))
      (by exact ⟨rfl, rfl, rfl, rfl, rfl⟩)
    rw [h] at hinv
    exact hinv

theorem C10_witness :
    analyse_plan [("s", [c7sample])] "s" =
        some (⟨[change_details c7sample ["create", "delete"]], [], [], [], [], []⟩,
          ⟨1, 0, 1, 0, 0⟩)
      ∧ (⟨1, 0, 1, 0, 0⟩ : Summary).create =
          ([] : List Resource).length + [change_details c7sample ["create", "delete"]].length := by
  constructor
  · rfl
  · exact (C10_summary_counts_buckets [("s", [c7sample])] "s"
      ⟨[change_details c7sample ["create", "delete"]], [], [], [], [], []⟩
      ⟨1, 0, 1, 0, 0⟩ rfl).2.2.2.1

/-! ## C8: diffing a value against itself -/

theorem foldl_const {α β : Type _} : ∀ (l : List α) (init : β),
    l.foldl (fun acc _ => acc) init = init
  | [], _ => rfl
  | _ :: xs, init => foldl_const xs init

theorem mergeDiff_empty (acc : Diff) : mergeDiff acc emptyDiff = acc := rfl

theorem setDiff_self (xs : List String) : setDiff xs xs = [] := by
  unfold setDiff
  have h : xs.dedup.filter (fun k => !xs.contains k) = [] := by
    rw [List.filter_eq_nil_iff]
    intro a ha
    simp [List.mem_dedup.mp ha]
  rw [h]
  rfl

theorem zip_self {α : Type _} : ∀ (l : List α), l.zip l = l.map (fun a => (a, a))
  | [] => rfl
  | x :: xs => by simp [List.zip_cons_cons, zip_self xs]

theorem scalarEq_self (s : Scalar) : scalarEq s s = true := by
  cases s <;> simp [scalarEq]

theorem fdAux_self_empty : ∀ (n : Nat) (v : Value) (p : String), v.size ≤ n →
    fdAux n v v p = emptyDiff := by
  intro n
  induction n with
  | zero => intro v p h; exact absurd h (by have := Value.one_le_size v; omega)
  | succ n ih =>
      intro v p h
      simp only [fdAux]
      cases v with
      | dict fs =>
          simp only [fdStep, setDiff_self, List.foldl_nil]
          have hmem : ∀ (acc : Diff) (k : String),
              k ∈ interKeys (keys fs.toList) (keys fs.toList) →
              mergeDiff acc (fdAux n (getD fs.toList k nullV) (getD fs.toList k nullV)
                (stripDots (p ++ "." ++ k))) = acc := by
            intro acc k hk
            have hkk : k ∈ keys fs.toList := (mem_interKeys.mp hk).1
            have hs : (getD fs.toList k nullV).size ≤ n := by
              have := @size_getD_lt_dict fs k hkk
              simp only [Value.size] at this h ⊢
              omega
            rw [ih (getD fs.toList k nullV) (stripDots (p ++ "." ++ k)) hs, mergeDiff_empty]
          rw [foldl_congr_mem (g := fun acc _ => acc) (fun acc x hx => hmem acc x hx)]
          exact foldl_const _ _
      | list es =>
          simp only [fdStep, lt_irrefl, if_false]
          have hmem : ∀ (acc : Diff) (x : Nat × (Value × Value)),
              x ∈ (es.toList.zip es.toList).enum →
              mergeDiff acc (fdAux n x.2.1 x.2.2 (p ++ "[" ++ natStr x.1 ++ "]")) = acc := by
            intro acc x hx
            have hx2 : x.2 ∈ es.toList.zip es.toList := by
              have := List.mem_enum_iff_getElem?.mp hx
              exact List.getElem?_mem this
            rw [zip_self] at hx2
            obtain ⟨a, ha, hax⟩ := List.mem_map.mp hx2
            have h1 : x.2.1 = a := by rw [← hax]
            have h2 : x.2.2 = a := by rw [← hax]
            rw [h1, h2]
            have hs : a.size ≤ n := by
              have := @size_lt_list es a ha
              simp only [Value.size] at this h ⊢
              omega
            rw [ih a _ hs, mergeDiff_empty]
          rw [foldl_congr_mem (g := fun acc _ => acc) (fun acc x hx => hmem acc x hx)]
          exact foldl_const _ _
      | scalar s =>
          simp only [fdStep, pyEq, scalarEq_self, if_true]
      | other m =>
          simp only [fdStep, pyEq]
          rw [if_pos (by simp)]

/-- C8: diffing any tree-shaped value against itself produces the all-empty
Difference Set at every path, and the entry point maps it to the absent
result (`None`). -/
theorem C8_diff_self_none (v : Value) :
    get_the_differences v v = none ∧ ∀ p, find_differences v v p = emptyDiff := by
  have h : ∀ p, find_differences v v p = emptyDiff :=
    fun p => fdAux_self_empty (Value.size v) v p le_rfl
  refine ⟨?_, h⟩
  simp [get_the_differences, h "", emptyDiff]

/-! ## C5: values the engine cannot classify -/

/-- C5 counterexample: on a pair of distinct values of a kind the engine
cannot classify as mapping/sequence/scalar, the diff does not fail — it
returns a complete Difference Set with a single `changed` entry, and the
entry point returns it as an ordinary result, contradicting "fatal,
propagated to the caller; no partial diff is returned". -/
theorem C5_counterexample :
    find_differences (Value.other 0) (Value.other 1) "" =
        ⟨[], [], [("", (Value.other 0, Value.other 1))]⟩
      ∧ get_the_differences (Value.other 0) (Value.other 1) =
          some ⟨[], [], [("", (Value.other 0, Value.other 1))]⟩ :=
  ⟨rfl, rfl⟩

/-- C5 (amended): the diff engine never fails.  A value it cannot classify as
mapping or sequence falls through to the direct-comparison branch: the pair
yields a single `changed` entry at the current path when unequal and an empty
Difference Set when equal — a complete result either way. -/
theorem C5_unclassified_values_compared (m n : Nat) (p : String) :
    find_differences (Value.other m) (Value.other n) p =
      (if m = n then emptyDiff else ⟨[], [], [(p, (Value.other m, Value.other n))]⟩) := by
  rw [find_differences_eq]
  simp only [fdStep, pyEq]
  by_cases h : m = n <;> simp [h]

/-! ## C9: mirror symmetry of the diff -/

/-- Swap the before/after components of a `changed` entry. -/
def swapEntry (e : String × (Value × Value)) : String × (Value × Value) :=
  (e.1, Prod.swap e.2)

theorem scalarEq_symm (s t : Scalar) : scalarEq s t = scalarEq t s := by
  cases s <;> cases t <;> simp [scalarEq, eq_comm]

theorem pyEq_symm (b a : Value) : pyEq b a = pyEq a b := by
  cases b <;> cases a <;> simp [pyEq, scalarEq_symm, eq_comm]

theorem interKeys_comm (xs ys : List String) : interKeys xs ys = interKeys ys xs := by
  unfold interKeys
  apply sortKeys_eq_of_mem_iff ((xs.nodup_dedup).filter _) ((ys.nodup_dedup).filter _)
  intro k
  simp only [List.mem_filter, List.mem_dedup]
  constructor
  · rintro ⟨h1, h2⟩
    simp at h2 ⊢
    exact ⟨h2, h1⟩
  · rintro ⟨h1, h2⟩
    simp at h2 ⊢
    exact ⟨h2, h1⟩

theorem dictInsert_map_value {α β : Type} (f : α → β) :
    ∀ (ps : List (String × α)) (k : String) (v : α),
    dictInsert (ps.map (fun e => (e.1, f e.2))) k (f v) =
      (dictInsert ps k v).map (fun e => (e.1, f e.2))
  | [], _, _ => rfl
  | (k', v') :: rest, k, v => by
      by_cases h : k' = k <;>
        simp [dictInsert, h, dictInsert_map_value f rest k v]

theorem dictUpdate_map_value {α β : Type} (f : α → β) :
    ∀ (qs ps : List (String × α)),
    dictUpdate (ps.map (fun e => (e.1, f e.2))) (qs.map (fun e => (e.1, f e.2))) =
      (dictUpdate ps qs).map (fun e => (e.1, f e.2))
  | [], _ => rfl
  | q :: qs, ps => by
      simp only [List.map_cons, dictUpdate, List.foldl_cons]
      have h := dictInsert_map_value f ps q.1 q.2
      simp only [h]
      exact dictUpdate_map_value f qs (dictInsert ps q.1 q.2)

/-- The changed-entry swap as the value-map used by `dictUpdate_map_value`. -/
theorem swapEntry_as_map (l : List (String × (Value × Value))) :
    l.map swapEntry = l.map (fun e => (e.1, Prod.swap e.2)) := rfl

/-- The mirror relation between `diff(b, a)` and `diff(a, b)`. -/
def MirrorRel (d e : Diff) : Prop :=
  d.added = e.removed ∧ d.removed = e.added ∧ d.changed = e.changed.map swapEntry

theorem mirror_mergeDiff {acc1 acc2 sub1 sub2 : Diff}
    (ha : MirrorRel acc1 acc2) (hs : MirrorRel sub1 sub2) :
    MirrorRel (mergeDiff acc1 sub1) (mergeDiff acc2 sub2) := by
  obtain ⟨ha1, ha2, ha3⟩ := ha
  obtain ⟨hs1, hs2, hs3⟩ := hs
  refine ⟨?_, ?_, ?_⟩
  · simp only [mergeDiff, ha1, hs1]
  · simp only [mergeDiff, ha2, hs2]
  · simp only [mergeDiff, ha3, hs3, swapEntry_as_map]
    exact dictUpdate_map_value Prod.swap sub2.changed acc2.changed

theorem foldl_mergeDiff_mirror {α : Type} :
    ∀ (l : List α) (f g : α → Diff) (acc1 acc2 : Diff),
    (∀ x ∈ l, MirrorRel (f x) (g x)) → MirrorRel acc1 acc2 →
    MirrorRel (l.foldl (fun acc x => mergeDiff acc (f x)) acc1)
      (l.foldl (fun acc x => mergeDiff acc (g x)) acc2)
  | [], _, _, _, _, _, hacc => hacc
  | x :: xs, f, g, acc1, acc2, hfg, hacc => by
      simp only [List.foldl_cons]
      exact foldl_mergeDiff_mirror xs f g _ _ (fun y hy => hfg y (List.mem_cons_of_mem x hy))
        (mirror_mergeDiff hacc (hfg x (List.mem_cons_self x xs)))

theorem mirror_fallback (b a : Value) (p : String) :
    MirrorRel (if pyEq b a then emptyDiff else ⟨[], [], [(p, (b, a))]⟩)
      (if pyEq a b then emptyDiff else ⟨[], [], [(p, (a, b))]⟩) := by
  rw [pyEq_symm b a]
  by_cases h : pyEq a b = true
  · simp [h, MirrorRel, emptyDiff]
  · simp only [h, Bool.false_eq_true, if_false]
    exact ⟨rfl, rfl, by simp [swapEntry]⟩

theorem fdAux_mirror : ∀ (n : Nat) (b a : Value) (p : String),
    b.size ≤ n → a.size ≤ n → MirrorRel (fdAux n b a p) (fdAux n a b p) := by
  intro n
  induction n with
  | zero => intro b a p hb; exact absurd hb (by have := Value.one_le_size b; omega)
  | succ n ih =>
      intro b a p hb ha
      simp only [fdAux]
      cases b with
      | dict bfs =>
          cases a with
          | dict afs =>
              simp only [fdStep]
              rw [interKeys_comm (keys afs.toList) (keys bfs.toList)]
              apply foldl_mergeDiff_mirror
              · intro k hk
                have hkb : k ∈ keys bfs.toList := (mem_interKeys.mp hk).1
                have hka : k ∈ keys afs.toList := (mem_interKeys.mp hk).2
                apply ih
                · have := @size_getD_lt_dict bfs k hkb
                  simp only [Value.size] at this hb; omega
                · have := @size_getD_lt_dict afs k hka
                  simp only [Value.size] at this ha; omega
              · exact ⟨rfl, rfl, rfl⟩
          | list aes => exact mirror_fallback _ _ _
          | scalar s => exact mirror_fallback _ _ _
          | other m => exact mirror_fallback _ _ _
      | list bes =>
          cases a with
          | dict afs => exact mirror_fallback _ _ _
          | list aes =>
              simp only [fdStep]
              have hzip : aes.toList.zip bes.toList =
                  (bes.toList.zip aes.toList).map Prod.swap :=
                (List.zip_swap bes.toList aes.toList).symm
              rw [hzip, List.enum_map, List.foldl_map]
              have hbase : MirrorRel
                  ((bes.toList.zip aes.toList).enum.foldl
                    (fun acc x => mergeDiff acc (fdAux n x.2.1 x.2.2 (p ++ "[" ++ natStr x.1 ++ "]")))
                    emptyDiff)
                  ((bes.toList.zip aes.toList).enum.foldl
                    (fun acc x => mergeDiff acc
                      (fdAux n (Prod.map id Prod.swap x).2.1 (Prod.map id Prod.swap x).2.2
                        (p ++ "[" ++ natStr (Prod.map id Prod.swap x).1 ++ "]")))
                    emptyDiff) := by
                apply foldl_mergeDiff_mirror
                · intro x hx
                  have hx2 : x.2 ∈ bes.toList.zip aes.toList := by
                    have := List.mem_enum_iff_getElem?.mp hx
                    exact List.getElem?_mem this
                  have hxb : x.2.1 ∈ bes.toList := (List.of_mem_zip hx2).1
                  have hxa : x.2.2 ∈ aes.toList := (List.of_mem_zip hx2).2
                  simp only [Prod.map, id]
                  apply ih
                  · have := @size_lt_list bes x.2.1 hxb
                    simp only [Value.size] at this hb; omega
                  · have := @size_lt_list aes x.2.2 hxa
                    simp only [Value.size] at this ha; omega
                · exact ⟨rfl, rfl, rfl⟩
              obtain ⟨h1, h2, h3⟩ := hbase
              by_cases hlen : bes.toList.length < aes.toList.length
              · have hlen' : ¬ aes.toList.length < bes.toList.length := by omega
                simp only [hlen, hlen', if_true, if_false]
                exact ⟨by simp only [h1], by simp only [h2], by simp only [h3]⟩
              · by_cases hlen2 : aes.toList.length < bes.toList.length
                · simp only [hlen, hlen2, if_true, if_false]
                  exact ⟨by simp only [h1], by simp only [h2], by simp only [h3]⟩
                · simp only [hlen, hlen2, if_false]
                  exact ⟨h1, h2, h3⟩
          | scalar s => exact mirror_fallback _ _ _
          | other m => exact mirror_fallback _ _ _
      | scalar s =>
          cases a with
          | dict afs => exact mirror_fallback _ _ _
          | list aes => exact mirror_fallback _ _ _
          | scalar t => exact mirror_fallback _ _ _
          | other m => exact mirror_fallback _ _ _
      | other m =>
          cases a with
          | dict afs => exact mirror_fallback _ _ _
          | list aes => exact mirror_fallback _ _ _
          | scalar t => exact mirror_fallback _ _ _
          | other k => exact mirror_fallback _ _ _

/-- C9: `diff(before, after)`'s `added` equals `diff(after, before)`'s
`removed` and vice versa, and the two diffs have `changed` entries at the
same paths with the before/after components of each pair swapped. -/
theorem C9_diff_mirror (b a : Value) (p : String) :
    (find_differences b a p).added = (find_differences a b p).removed
      ∧ (find_differences b a p).removed = (find_differences a b p).added
      ∧ (find_differences b a p).changed =
          (find_differences a b p).changed.map (fun e => (e.1, (e.2.2, e.2.1))) := by
  have hM : MirrorRel (find_differences b a p) (find_differences a b p) := by
    unfold find_differences
    rw [fdAux_congr (Value.size b) (Value.size b + Value.size a) b a p le_rfl (by omega),
      fdAux_congr (Value.size a) (Value.size b + Value.size a) a b p le_rfl (by omega)]
    exact fdAux_mirror (Value.size b + Value.size a) b a p (by omega) (by omega)
  obtain ⟨h1, h2, h3⟩ := hM
  exact ⟨h1, h2, by rw [h3]; rfl⟩

/-! ## C1: absent before/after and totally new or removed entities -/

theorem dropWhile_all_false {α : Type} (p : α → Bool) :
    ∀ (l : List α), (∀ c ∈ l, p c = false) → l.dropWhile p = l
  | [], _ => rfl
  | x :: xs, h => by
      have hx : p x = false := h x (by simp)
      simp [List.dropWhile_cons, hx]

/-- Stripping the leading separator of a root-level path: for a dot-free key
`k`, `("" + "." + k).strip(".") = k`. -/
theorem stripDots_root (k : String) (h : ∀ c ∈ k.data, ¬ c = '.') :
    stripDots ("" ++ "." ++ k) = k := by
  have hdata : ("" ++ "." ++ k).data = '.' :: k.data := by
    cases k with
    | mk l => rfl
  unfold stripDots
  rw [hdata]
  have h1 : ('.' :: k.data).dropWhile (fun c => c = '.') = k.data.dropWhile (fun c => c = '.') := by
    simp [List.dropWhile_cons]
  rw [h1, dropWhile_all_false _ k.data (fun c hc => by simp [h c hc]),
    dropWhile_all_false _ k.data.reverse (fun c hc => by simp [h c (List.mem_reverse.mp hc)]),
    List.reverse_reverse]

theorem get?_dictInsert {α : Type} :
    ∀ (ps : List (String × α)) (k : String) (v : α) (q : String),
    get? (dictInsert ps k v) q = if k = q then some v else get? ps q
  | [], k, v, q => by simp [dictInsert, get?]
  | (k', v') :: rest, k, v, q => by
      by_cases h : k' = k
      · subst h
        by_cases hq : k' = q <;> simp [dictInsert, get?, hq]
      · simp only [dictInsert, h, if_false]
        by_cases hq : k' = q
        · subst hq
          have hkq : ¬ k = k' := fun hkk => h hkk.symm
          simp [get?, hkq]
        · simp only [get?, hq, if_false]
          exact get?_dictInsert rest k v q

theorem get?_foldl_dictInsert {α : Type} (vf : String → α) :
    ∀ (ks : List String) (acc : List (String × α)) (q : String),
    get? (ks.foldl (fun acc k => dictInsert acc k (vf k)) acc) q =
      (if q ∈ ks then some (vf q) else get? acc q)
  | [], acc, q => by simp
  | k :: ks, acc, q => by
      simp only [List.foldl_cons]
      rw [get?_foldl_dictInsert vf ks (dictInsert acc k (vf k)) q]
      by_cases hq : q ∈ ks
      · simp [hq, List.mem_cons]
      · rw [if_neg hq, get?_dictInsert]
        by_cases hk : k = q
        · subst hk; simp
        · have hqk : ¬ q = k := fun hqq => hk hqq.symm
          have : ¬ q ∈ k :: ks := by simp [List.mem_cons, hq, hqk]
          simp [this, hk]

/-- Diffing from an empty mapping: only the `added` loop contributes. -/
theorem find_differences_empty_before (afs : Fields) (p : String) :
    find_differences (Value.dict Fields.nil) (Value.dict afs) p =
      { added := (setDiff (keys afs.toList) (keys (Fields.toList Fields.nil))).foldl
          (fun acc k => dictInsert acc (stripDots (p ++ "." ++ k)) (getD afs.toList k nullV)) []
        removed := [], changed := [] } := by
  rw [find_differences_eq]
  rfl

/-- C1 (amended): an absent `before` is normalized to the empty mapping
before diffing, and diffing a totally new entity whose after-state is a
mapping with dot-free keys reports the change entirely in `added` — `removed`
and `changed` are empty — with every top-level key (carrying its entire
subtree value) as a separate entry; symmetrically, the reverse diff is
entirely in `removed`.  Leaf paths are not enumerated (see the
counterexample). -/
theorem C1_absent_state_diffs_top_level (c : Change) (action : List String) (afs : Fields)
    (hctl : (action.headD "") ∈ control_actions)
    (hb : c.before = none) (ha : c.after = some (Value.dict afs))
    (hkeys : ∀ k ∈ keys afs.toList, ∀ ch ∈ k.data, ¬ ch = '.') :
    (change_details c action).differences =
        (match get_the_differences (Value.dict Fields.nil) (Value.dict afs) with
          | some d => DiffField.set d
          | none => DiffField.null)
      ∧ (find_differences (Value.dict Fields.nil) (Value.dict afs) "").removed = []
      ∧ (find_differences (Value.dict Fields.nil) (Value.dict afs) "").changed = []
      ∧ (∀ q, get? (find_differences (Value.dict Fields.nil) (Value.dict afs) "").added q
          = get? afs.toList q)
      ∧ (find_differences (Value.dict afs) (Value.dict Fields.nil) "").added = []
      ∧ (find_differences (Value.dict afs) (Value.dict Fields.nil) "").changed = []
      ∧ (∀ q, get? (find_differences (Value.dict afs) (Value.dict Fields.nil) "").removed q
          = get? afs.toList q) := by
  have hadded : ∀ q, get? (find_differences (Value.dict Fields.nil) (Value.dict afs) "").added q
      = get? afs.toList q := by
    intro q
    rw [find_differences_empty_before]
    have hcongr : ∀ (acc : List (String × Value)) (k : String),
        k ∈ setDiff (keys afs.toList) (keys (Fields.toList Fields.nil)) →
        dictInsert acc (stripDots ("" ++ "." ++ k)) (getD afs.toList k nullV) =
          dictInsert acc k (getD afs.toList k nullV) := by
      intro acc k hk
      rw [stripDots_root k (hkeys k (mem_setDiff.mp hk).1)]
    rw [foldl_congr_mem hcongr, get?_foldl_dictInsert]
    by_cases hq : q ∈ setDiff (keys afs.toList) (keys (Fields.toList Fields.nil))
    · rw [if_pos hq]
      obtain ⟨v, hv⟩ := get?_isSome_of_mem_keys (mem_setDiff.mp hq).1
      simp [getD, hv]
    · rw [if_neg hq]
      have hq' : q ∉ keys afs.toList := fun hmem =>
        hq (mem_setDiff.mpr ⟨hmem, by simp [keys, Fields.toList]⟩)
      rw [get?_eq_none_of_not_mem_keys hq']
      rfl
  have hM : MirrorRel (find_differences (Value.dict Fields.nil) (Value.dict afs) "")
      (find_differences (Value.dict afs) (Value.dict Fields.nil) "") := by
    unfold find_differences
    rw [fdAux_congr (Value.size (Value.dict Fields.nil))
        (Value.size (Value.dict Fields.nil) + Value.size (Value.dict afs))
        (Value.dict Fields.nil) (Value.dict afs) "" le_rfl (by omega),
      fdAux_congr (Value.size (Value.dict afs))
        (Value.size (Value.dict Fields.nil) + Value.size (Value.dict afs))
        (Value.dict afs) (Value.dict Fields.nil) "" le_rfl (by omega)]
    exact fdAux_mirror _ _ _ _ (by omega) (by omega)
  obtain ⟨hm1, hm2, hm3⟩ := hM
  have hrem : (find_differences (Value.dict Fields.nil) (Value.dict afs) "").removed = [] := by
    rw [find_differences_empty_before]
  have hchg : (find_differences (Value.dict Fields.nil) (Value.dict afs) "").changed = [] := by
    rw [find_differences_empty_before]
  refine ⟨?_, hrem, hchg, hadded, ?_, ?_, ?_⟩
  · unfold change_details
    rw [if_pos hctl, hb, ha]
    rfl
  · rw [← hm2, hrem]
  · have := hm3.symm
    rw [hchg] at hm3
    exact (List.map_eq_nil_iff.mp hm3.symm)
  · intro q
    rw [← hm1]
    exact hadded q

/-- The nested after-state `{"a": {"b": 1}}`. -/
def nestedAfter : Fields :=
  Fields.cons "a" (Value.dict (Fields.cons "b" (Value.scalar (Scalar.num 1)) Fields.nil))
    Fields.nil

/-- A record for a totally new entity: `before` absent, nested `after`. -/
def c1sample : Change :=
  { name := some "r", type := some "t", actions := ["create"],
    before := none, after := some (Value.dict nestedAfter), dependencies := none }

/-- C1 counterexample: for a totally new entity with after-state
`{"a": {"b": 1}}`, the diff's `added` holds the single top-level entry `"a"`
with the whole subtree as its value; the leaf path `"a.b"` is not a key of
`added`, contradicting "every leaf path of the other tree enumerated as a
separate entry". -/
theorem C1_counterexample :
    (change_details c1sample ["create"]).differences =
        DiffField.set
          ⟨[("a", Value.dict (Fields.cons "b" (Value.scalar (Scalar.num 1)) Fields.nil))],
            [], []⟩
      ∧ get? (find_differences (Value.dict Fields.nil) (Value.dict nestedAfter) "").added
          "a.b" = none :=
  ⟨rfl, rfl⟩

theorem C1_witness :
    ((["create"] : List String).headD "" ∈ control_actions
        ∧ c1sample.before = none
        ∧ c1sample.after = some (Value.dict nestedAfter)
        ∧ ∀ k ∈ keys nestedAfter.toList, ∀ ch ∈ k.data, ¬ ch = '.')
      ∧ (find_differences (Value.dict Fields.nil) (Value.dict nestedAfter) "").removed = []
      ∧ (∀ q, get? (find_differences (Value.dict Fields.nil) (Value.dict nestedAfter) "").added q
          = get? nestedAfter.toList q) := by
  have h := C1_absent_state_diffs_top_level c1sample ["create"] nestedAfter
    (by decide) rfl rfl (by decide)
  exact ⟨⟨by decide, rfl, rfl, by decide⟩, h.2.1, h.2.2.2.1⟩

/-! ## C4: path disjointness across the three mappings

Path collisions are possible when mapping keys contain the separator
characters `.` or `[` (see the counterexample).  For trees whose keys avoid
them, every generated path is distinct; the development below proves it. -/

/-- All path keys of a Difference Set, in order. -/
def diffPaths (d : Diff) : List String :=
  keys d.added ++ keys d.removed ++ keys d.changed

/-- A clean mapping key: nonempty and free of the path-separator characters
`.` and `[`. -/
def cleanKey (k : String) : Prop :=
  ¬ k = "" ∧ ∀ c ∈ k.data, ¬ c = '.' ∧ ¬ c = '['

instance (k : String) : Decidable (cleanKey k) := by
  unfold cleanKey
  infer_instance

/-- Every mapping key throughout the tree is clean. -/
inductive CleanValue : Value → Prop where
  | scalar (s : Scalar) : CleanValue (Value.scalar s)
  | other (n : Nat) : CleanValue (Value.other n)
  | dict (fs : Fields) (hk : ∀ kv ∈ fs.toList, cleanKey kv.1)
      (hv : ∀ kv ∈ fs.toList, CleanValue kv.2) : CleanValue (Value.dict fs)
  | list (es : Elems) (h : ∀ v ∈ es.toList, CleanValue v) : CleanValue (Value.list es)

theorem cleanValue_dict_key {fs : Fields} (h : CleanValue (Value.dict fs)) {k : String}
    (hk : k ∈ keys fs.toList) : cleanKey k := by
  cases h with
  | dict _ hh _ =>
      obtain ⟨v, hv⟩ := get?_isSome_of_mem_keys hk
      exact hh (k, v) (get?_mem hv)

theorem cleanValue_dict_val {fs : Fields} (h : CleanValue (Value.dict fs)) {k : String}
    (hk : k ∈ keys fs.toList) (d : Value) :
    CleanValue (getD fs.toList k d) := by
  cases h with
  | dict _ _ hh =>
      obtain ⟨v, hv⟩ := get?_isSome_of_mem_keys hk
      have := hh (k, v) (get?_mem hv)
      simpa [getD, hv] using this

theorem cleanValue_list_val {es : Elems} (h : CleanValue (Value.list es)) {v : Value}
    (hv : v ∈ es.toList) : CleanValue v := by
  cases h with
  | list _ hh => exact hh v hv

/-- The path prefix a mapping key is appended to. -/
def dictPre (p : String) : String :=
  if p = "" then "" else p ++ "."

/-- The path of a mapping entry: `path.key`, with the root-level leading dot
already stripped. -/
def dictChild (p k : String) : String :=
  dictPre p ++ k

/-- The path of a sequence entry: `path[i]`. -/
def idxChild (p : String) (i : Nat) : String :=
  p ++ "[" ++ natStr i ++ "]"

/-- A path suffix that is either empty or starts a new segment. -/
def suffixOk (s : List Char) : Prop :=
  s = [] ∨ (∃ t, s = '.' :: t) ∨ (∃ t, s = '[' :: t)

/-- `q` lies at or strictly below the anchor path `base`. -/
def Based (base q : String) : Prop :=
  ∃ s : List Char, q.data = base.data ++ s ∧ suffixOk s

/-- The shape of every path produced by a call of `find_differences` at
path `p`: the path itself, below a mapping key, or below a sequence index. -/
def childShape (p q : String) : Prop :=
  q = p
  ∨ (∃ k : String, ∃ s : List Char, cleanKey k
      ∧ q.data = (dictChild p k).data ++ s ∧ suffixOk s)
  ∨ (∃ i : Nat, ∃ s : List Char,
      q.data = (idxChild p i).data ++ s ∧ suffixOk s)

/-- A path has no leading and no trailing dot. -/
def edgeOk (p : String) : Prop :=
  (∀ c, p.data.head? = some c → ¬ c = '.')
    ∧ (∀ c, p.data.reverse.head? = some c → ¬ c = '.')

theorem edgeOk_empty : edgeOk "" :=
  ⟨fun c h => by simp at h, fun c h => by simp at h⟩

theorem head?_mem {α : Type} {l : List α} {c : α} (h : l.head? = some c) : c ∈ l := by
  cases l with
  | nil => simp at h
  | cons x xs => simp at h; simp [h]

theorem data_append (s t : String) : (s ++ t).data = s.data ++ t.data :=
  String.data_append s t

theorem str_ext {a b : String} (h : a.data = b.data) : a = b := by
  cases a with
  | mk l =>
      cases b with
      | mk m => congr 1

theorem data_ne_nil_of_ne_empty {k : String} (h : ¬ k = "") : k.data ≠ [] := by
  intro hd
  exact h (str_ext (by rw [hd]))

/-! ### Character-level path lemmas -/

theorem clean_prefix_inj :
    ∀ (k1 k2 s1 s2 : List Char),
    (∀ c ∈ k1, ¬ c = '.' ∧ ¬ c = '[') → (∀ c ∈ k2, ¬ c = '.' ∧ ¬ c = '[') →
    suffixOk s1 → suffixOk s2 → k1 ++ s1 = k2 ++ s2 → k1 = k2 ∧ s1 = s2
  | [], [], s1, s2, _, _, _, _, h => ⟨rfl, by simpa using h⟩
  | [], c :: k2, s1, s2, _, h2, hs1, _, h => by
      exfalso
      simp only [List.nil_append, List.cons_append] at h
      have hc := h2 c (by simp)
      rcases hs1 with h0 | ⟨t, ht⟩ | ⟨t, ht⟩
      · rw [h0] at h; exact nomatch h
      · rw [ht] at h
        have hcd : '.' = c := by
          have := congrArg List.head? h
          simpa using this
        exact hc.1 hcd.symm
      · rw [ht] at h
        have : '[' = c := by
          have := congrArg List.head? h
          simpa using this
        exact hc.2 this.symm
  | c :: k1, [], s1, s2, h1, _, _, hs2, h => by
      exfalso
      simp only [List.nil_append, List.cons_append] at h
      have hc := h1 c (by simp)
      rcases hs2 with h0 | ⟨t, ht⟩ | ⟨t, ht⟩
      · rw [h0] at h; exact nomatch h
      · rw [ht] at h
        have : c = '.' := by
          have := congrArg List.head? h
          simpa using this
        exact hc.1 this
      · rw [ht] at h
        have : c = '[' := by
          have := congrArg List.head? h
          simpa using this
        exact hc.2 this
  | c1 :: k1, c2 :: k2, s1, s2, h1, h2, hs1, hs2, h => by
      simp only [List.cons_append, List.cons.injEq] at h
      obtain ⟨hc, hrest⟩ := h
      obtain ⟨hk, hs⟩ := clean_prefix_inj k1 k2 s1 s2
        (fun c hc => h1 c (by simp [hc])) (fun c hc => h2 c (by simp [hc])) hs1 hs2 hrest
      exact ⟨by rw [hc, hk], hs⟩

theorem append_marker_inj {α : Type} (m : α) :
    ∀ (xs ys s1 s2 : List α), m ∉ xs → m ∉ ys →
    xs ++ m :: s1 = ys ++ m :: s2 → xs = ys ∧ s1 = s2
  | [], [], s1, s2, _, _, h => by
      simp only [List.nil_append, List.cons.injEq] at h
      exact ⟨rfl, h.2⟩
  | [], y :: ys, s1, s2, _, hy, h => by
      exfalso
      simp only [List.nil_append, List.cons_append, List.cons.injEq] at h
      exact hy (h.1 ▸ List.mem_cons_self y ys)
  | x :: xs, [], s1, s2, hx, _, h => by
      exfalso
      simp only [List.nil_append, List.cons_append, List.cons.injEq] at h
      exact hx (h.1.symm ▸ List.mem_cons_self x xs)
  | x :: xs, y :: ys, s1, s2, hx, hy, h => by
      simp only [List.cons_append, List.cons.injEq] at h
      obtain ⟨hxy, hrest⟩ := h
      obtain ⟨h1, h2⟩ := append_marker_inj m xs ys s1 s2
        (fun hm => hx (List.mem_cons_of_mem x hm)) (fun hm => hy (List.mem_cons_of_mem y hm))
        hrest
      exact ⟨by rw [hxy, h1], h2⟩

/-! ### Decimal index strings -/

def parseNat (l : List Char) : Nat :=
  l.foldl (fun acc c => acc * 10 + (c.toNat - 48)) 0

theorem digitChar_toNat : ∀ (d : Nat), d < 10 → (digitChar d).toNat = 48 + d := by
  intro d h
  interval_cases d <;> decide

theorem digitChar_sep (d : Nat) (h : d < 10) :
    ¬ digitChar d = '.' ∧ ¬ digitChar d = '[' ∧ ¬ digitChar d = ']' := by
  interval_cases d <;> exact ⟨by decide, by decide, by decide⟩

theorem natChars_spec : ∀ (fuel n : Nat), n < fuel →
    parseNat (natChars fuel n) = n
      ∧ ∀ c ∈ natChars fuel n, ∃ d, d < 10 ∧ c = digitChar d := by
  intro fuel
  induction fuel with
  | zero => intro n h; omega
  | succ fuel ih =>
      intro n hn
      by_cases h10 : n < 10
      · constructor
        · simp only [natChars, h10, if_true, parseNat, List.foldl_cons, List.foldl_nil]
          rw [digitChar_toNat n h10]
          omega
        · intro c hc
          simp only [natChars, h10, if_true, List.mem_singleton] at hc
          exact ⟨n, h10, hc⟩
      · have hdiv : n / 10 < fuel := by
          have h1 : n / 10 < n := Nat.div_lt_self (by omega) (by omega)
          omega
        obtain ⟨hp, hd⟩ := ih (n / 10) hdiv
        constructor
        · simp only [natChars, h10, if_false, parseNat, List.foldl_append,
            List.foldl_cons, List.foldl_nil]
          unfold parseNat at hp
          rw [hp, digitChar_toNat (n % 10) (Nat.mod_lt _ (by omega))]
          omega
        · intro c hc
          simp only [natChars, h10, if_false, List.mem_append, List.mem_singleton] at hc
          rcases hc with hc | hc
          · exact hd c hc
          · exact ⟨n % 10, Nat.mod_lt _ (by omega), hc⟩

theorem natStr_digits (n : Nat) :
    ∀ c ∈ (natStr n).data, ∃ d, d < 10 ∧ c = digitChar d :=
  fun c hc => (natChars_spec (n + 1) n (by omega)).2 c hc

theorem natStr_sep (n : Nat) :
    ∀ c ∈ (natStr n).data, ¬ c = '.' ∧ ¬ c = '[' ∧ ¬ c = ']' := by
  intro c hc
  obtain ⟨d, hd, rfl⟩ := natStr_digits n c hc
  exact digitChar_sep d hd

theorem natStr_inj {i j : Nat} (h : (natStr i).data = (natStr j).data) : i = j := by
  have hi := (natChars_spec (i + 1) i (by omega)).1
  have hj := (natChars_spec (j + 1) j (by omega)).1
  have hdi : (natStr i).data = natChars (i + 1) i := rfl
  have hdj : (natStr j).data = natChars (j + 1) j := rfl
  rw [hdi, hdj] at h
  rw [← hi, ← hj, h]

/-! ### Data decompositions of child paths -/

theorem dictChild_data_root (k : String) : (dictChild "" k).data = k.data := by
  simp [dictChild, dictPre, data_append]

theorem dictChild_data (p k : String) (hp : ¬ p = "") :
    (dictChild p k).data = p.data ++ '.' :: k.data := by
  simp [dictChild, dictPre, hp, data_append]

theorem dictChild_data_pre (p k : String) :
    (dictChild p k).data = (dictPre p).data ++ k.data := by
  simp [dictChild, data_append]

theorem idxChild_data (p : String) (i : Nat) :
    (idxChild p i).data = p.data ++ '[' :: ((natStr i).data ++ [']']) := by
  simp [idxChild, data_append]

theorem dictChild_ne_empty (p k : String) (hk : cleanKey k) : ¬ dictChild p k = "" := by
  intro h
  have := congrArg String.data h
  rw [dictChild_data_pre] at this
  have hknil : k.data = [] := by
    rcases List.append_eq_nil.mp (by simpa using this) with ⟨_, h2⟩
    exact h2
  exact (data_ne_nil_of_ne_empty hk.1) hknil

theorem idxChild_ne_empty (p : String) (i : Nat) : ¬ idxChild p i = "" := by
  intro h
  have := congrArg String.data h
  rw [idxChild_data] at this
  simp at this

/-! ### Disjointness of anchored paths -/

theorem based_dictChild_inj {p k1 k2 q1 q2 : String}
    (hk1 : cleanKey k1) (hk2 : cleanKey k2)
    (h1 : Based (dictChild p k1) q1) (h2 : Based (dictChild p k2) q2)
    (hne : ¬ k1 = k2) : ¬ q1 = q2 := by
  intro hq
  obtain ⟨s1, e1, o1⟩ := h1
  obtain ⟨s2, e2, o2⟩ := h2
  rw [dictChild_data_pre] at e1 e2
  rw [hq] at e1
  have he : k1.data ++ s1 = k2.data ++ s2 := by
    have := e1.symm.trans e2
    rw [List.append_assoc, List.append_assoc] at this
    exact List.append_cancel_left this
  exact hne (str_ext (clean_prefix_inj k1.data k2.data s1 s2 hk1.2 hk2.2 o1 o2 he).1)

theorem based_dict_idx_disj {p k q1 q2 : String} {i : Nat}
    (hk : cleanKey k) (h1 : Based (dictChild p k) q1) (h2 : Based (idxChild p i) q2) :
    ¬ q1 = q2 := by
  intro hq
  obtain ⟨s1, e1, o1⟩ := h1
  obtain ⟨s2, e2, o2⟩ := h2
  rw [idxChild_data] at e2
  rw [hq] at e1
  by_cases hp : p = ""
  · subst hp
    rw [dictChild_data_root] at e1
    simp only [String.data] at e1 e2
    have he : k.data ++ s1 = '[' :: ((natStr i).data ++ [']']) ++ s2 := by
      have := e1.symm.trans e2
      simpa using this
    obtain ⟨c, rest, hcr⟩ : ∃ c rest, k.data = c :: rest := by
      cases hk0 : k.data with
      | nil => exact absurd hk0 (data_ne_nil_of_ne_empty hk.1)
      | cons c rest => exact ⟨c, rest, rfl⟩
    rw [hcr] at he
    have hc : c = '[' := by
      have := congrArg List.head? he
      simpa using this
    exact (hk.2 c (by rw [hcr]; simp)).2 hc
  · rw [dictChild_data p k hp] at e1
    have he : ('.' :: k.data) ++ s1 = ('[' :: ((natStr i).data ++ [']'])) ++ s2 := by
      have := e1.symm.trans e2
      rw [List.append_assoc, List.append_assoc] at this
      exact List.append_cancel_left this
    have hch := congrArg List.head? he
    simp at hch

theorem based_idx_inj {p q1 q2 : String} {i j : Nat}
    (h1 : Based (idxChild p i) q1) (h2 : Based (idxChild p j) q2) (hne : ¬ i = j) :
    ¬ q1 = q2 := by
  intro hq
  obtain ⟨s1, e1, o1⟩ := h1
  obtain ⟨s2, e2, o2⟩ := h2
  rw [idxChild_data] at e1 e2
  rw [hq] at e1
  have he : (natStr i).data ++ ']' :: s1 = (natStr j).data ++ ']' :: s2 := by
    have h0 := e1.symm.trans e2
    have h1' : p.data ++ '[' :: ((natStr i).data ++ (']' :: s1)) =
        p.data ++ '[' :: ((natStr j).data ++ (']' :: s2)) := by
      simpa [List.append_assoc] using h0
    have h2' := List.append_cancel_left h1'
    simpa using h2'
  have hmem1 : ']' ∉ (natStr i).data := fun hm => (natStr_sep i ']' hm).2.2 rfl
  have hmem2 : ']' ∉ (natStr j).data := fun hm => (natStr_sep j ']' hm).2.2 rfl
  exact hne (natStr_inj (append_marker_inj ']' _ _ _ _ hmem1 hmem2 he).1)

/-! ### Strip identities and edge preservation -/

theorem head?_append_left {α : Type} {l : List α} (m : List α) (h : l ≠ []) :
    (l ++ m).head? = l.head? := by
  cases l with
  | nil => exact absurd rfl h
  | cons x xs => rfl

theorem reverse_ne_nil {α : Type} {l : List α} (h : l ≠ []) : l.reverse ≠ [] := by
  intro hh
  exact h (by simpa using congrArg List.reverse hh)

theorem stripDots_eq_self (s : String)
    (h1 : ∀ c, s.data.head? = some c → ¬ c = '.')
    (h2 : ∀ c, s.data.reverse.head? = some c → ¬ c = '.') :
    stripDots s = s := by
  apply str_ext
  show ((s.data.dropWhile (fun c => c = '.')).reverse.dropWhile (fun c => c = '.')).reverse
    = s.data
  have hd1 : s.data.dropWhile (fun c => c = '.') = s.data := by
    cases hD : s.data with
    | nil => rfl
    | cons c rest =>
        have hc := h1 c (by rw [hD]; rfl)
        simp [List.dropWhile_cons, hc]
  rw [hd1]
  have hd2 : s.data.reverse.dropWhile (fun c => c = '.') = s.data.reverse := by
    cases hD : s.data.reverse with
    | nil => rfl
    | cons c rest =>
        have hc := h2 c (by rw [hD]; rfl)
        simp [List.dropWhile_cons, hc]
  rw [hd2, List.reverse_reverse]

/-- Stripping is the identity on a non-root mapping-entry path. -/
theorem stripDots_dictChild (p k : String) (hp : edgeOk p) (hk : cleanKey k) :
    stripDots (p ++ "." ++ k) = dictChild p k := by
  by_cases hp0 : p = ""
  · subst hp0
    have hroot : dictChild "" k = k := str_ext (dictChild_data_root k)
    rw [hroot]
    exact stripDots_root k (fun c hc => (hk.2 c hc).1)
  · have hdc : p ++ "." ++ k = dictChild p k := by simp [dictChild, dictPre, hp0]
    rw [hdc]
    apply stripDots_eq_self
    · intro c hc
      rw [dictChild_data p k hp0,
        head?_append_left _ (data_ne_nil_of_ne_empty hp0)] at hc
      exact hp.1 c hc
    · intro c hc
      rw [dictChild_data p k hp0, List.reverse_append, List.reverse_cons,
        List.append_assoc,
        head?_append_left _ (reverse_ne_nil (data_ne_nil_of_ne_empty hk.1))] at hc
      exact (hk.2 c (List.mem_reverse.mp (head?_mem hc))).1

/-- Stripping is the identity on a sequence-entry path. -/
theorem stripDots_idxChild (p : String) (i : Nat) (hp : edgeOk p) :
    stripDots (idxChild p i) = idxChild p i := by
  apply stripDots_eq_self
  · intro c hc
    rw [idxChild_data] at hc
    by_cases hp0 : p = ""
    · rw [hp0] at hc
      simp only [String.data] at hc
      have hcc : '[' = c := by simpa using hc
      rw [← hcc]; decide
    · rw [head?_append_left _ (data_ne_nil_of_ne_empty hp0)] at hc
      exact hp.1 c hc
  · intro c hc
    rw [idxChild_data, List.reverse_append, List.reverse_cons, List.reverse_append] at hc
    have hcc : ']' = c := by simpa using hc
    rw [← hcc]; decide

theorem edgeOk_dictChild (p k : String) (hp : edgeOk p) (hk : cleanKey k) :
    edgeOk (dictChild p k) := by
  constructor
  · intro c hc
    by_cases hp0 : p = ""
    · rw [hp0, dictChild_data_root] at hc
      exact (hk.2 c (head?_mem hc)).1
    · rw [dictChild_data p k hp0,
        head?_append_left _ (data_ne_nil_of_ne_empty hp0)] at hc
      exact hp.1 c hc
  · intro c hc
    by_cases hp0 : p = ""
    · rw [hp0, dictChild_data_root] at hc
      exact (hk.2 c (List.mem_reverse.mp (head?_mem hc))).1
    · rw [dictChild_data p k hp0, List.reverse_append, List.reverse_cons,
        List.append_assoc,
        head?_append_left _ (reverse_ne_nil (data_ne_nil_of_ne_empty hk.1))] at hc
      exact (hk.2 c (List.mem_reverse.mp (head?_mem hc))).1

theorem edgeOk_idxChild (p : String) (i : Nat) (hp : edgeOk p) :
    edgeOk (idxChild p i) := by
  constructor
  · intro c hc
    rw [idxChild_data] at hc
    by_cases hp0 : p = ""
    · rw [hp0] at hc
      simp only [String.data] at hc
      have hcc : '[' = c := by simpa using hc
      rw [← hcc]; decide
    · rw [head?_append_left _ (data_ne_nil_of_ne_empty hp0)] at hc
      exact hp.1 c hc
  · intro c hc
    rw [idxChild_data, List.reverse_append, List.reverse_cons, List.reverse_append] at hc
    have hcc : ']' = c := by simpa using hc
    rw [← hcc]; decide

/-! ### Based and childShape transfer -/

theorem based_self (base : String) : Based base base :=
  ⟨[], by simp, Or.inl rfl⟩

theorem based_of_childShape {cp q : String} (h : childShape cp q) (hcp : ¬ cp = "") :
    Based cp q := by
  rcases h with rfl | ⟨k, s, hk, he, _⟩ | ⟨i, s, he, _⟩
  · exact based_self _
  · refine ⟨'.' :: (k.data ++ s), ?_, Or.inr (Or.inl ⟨_, rfl⟩)⟩
    rw [he, dictChild_data cp k hcp]
    simp [List.append_assoc]
  · refine ⟨'[' :: ((natStr i).data ++ [']'] ++ s), ?_, Or.inr (Or.inr ⟨_, rfl⟩)⟩
    rw [he, idxChild_data]
    simp [List.append_assoc]

theorem childShape_of_based_dict {p k q : String} (hk : cleanKey k)
    (h : Based (dictChild p k) q) : childShape p q := by
  obtain ⟨s, he, ho⟩ := h
  exact Or.inr (Or.inl ⟨k, s, hk, he, ho⟩)

theorem childShape_of_based_idx {p q : String} {i : Nat}
    (h : Based (idxChild p i) q) : childShape p q := by
  obtain ⟨s, he, ho⟩ := h
  exact Or.inr (Or.inr ⟨i, s, he, ho⟩)

theorem based_ne_parent {base q p : String} (h : Based base q)
    (hlen : p.data.length < base.data.length) : ¬ q = p := by
  intro hq
  obtain ⟨s, he, _⟩ := h
  rw [hq] at he
  have := congrArg List.length he
  rw [List.length_append] at this
  omega

/-! ### Merging disjoint results is concatenation -/

theorem keys_append {α : Type} (ps qs : List (String × α)) :
    keys (ps ++ qs) = keys ps ++ keys qs := by
  simp [keys]

theorem dictInsert_append {α : Type} : ∀ (ps : List (String × α)) (k : String) (v : α),
    k ∉ keys ps → dictInsert ps k v = ps ++ [(k, v)]
  | [], _, _, _ => rfl
  | (k', v') :: rest, k, v, h => by
      have hk : ¬ k' = k := by
        intro he
        exact h (by simp [keys, he])
      have hrest : k ∉ keys rest := fun hm => h (by simp [keys] at hm ⊢; exact Or.inr hm)
      simp [dictInsert, hk, dictInsert_append rest k v hrest]

theorem dictUpdate_append {α : Type} : ∀ (qs ps : List (String × α)),
    (keys qs).Nodup → (∀ k ∈ keys qs, k ∉ keys ps) → dictUpdate ps qs = ps ++ qs
  | [], ps, _, _ => by simp [dictUpdate]
  | q :: qs, ps, hnd, hdisj => by
      have hkeys_cons : keys (q :: qs) = q.1 :: keys qs := rfl
      rw [hkeys_cons] at hnd
      have hq1 : q.1 ∉ keys qs := (List.nodup_cons.mp hnd).1
      have hnd' : (keys qs).Nodup := (List.nodup_cons.mp hnd).2
      simp only [dictUpdate, List.foldl_cons]
      have h1 : q.1 ∉ keys ps := hdisj q.1 (by rw [hkeys_cons]; simp)
      have hins : dictInsert ps q.1 q.2 = ps ++ [q] := by
        rw [dictInsert_append ps q.1 q.2 h1]
      rw [hins]
      have hdisj' : ∀ k ∈ keys qs, k ∉ keys (ps ++ [q]) := by
        intro k hk
        rw [keys_append]
        intro hmem
        rcases List.mem_append.mp hmem with h | h
        · exact hdisj k (by rw [hkeys_cons]; exact List.mem_cons_of_mem _ hk) h
        · have : k = q.1 := by simpa [keys] using h
          exact hq1 (this ▸ hk)
      have hrec := dictUpdate_append qs (ps ++ [q]) hnd' hdisj'
      have hgoal : dictUpdate (ps ++ [q]) qs = (ps ++ [q]) ++ qs := hrec
      rw [show List.foldl (fun acc kv => dictInsert acc kv.1 kv.2) (ps ++ [q]) qs
          = dictUpdate (ps ++ [q]) qs from rfl, hgoal]
      simp

theorem diffPaths_nodup_added {d : Diff} (h : (diffPaths d).Nodup) : (keys d.added).Nodup :=
  h.of_append_left.of_append_left

theorem diffPaths_nodup_removed {d : Diff} (h : (diffPaths d).Nodup) :
    (keys d.removed).Nodup :=
  h.of_append_left.of_append_right

theorem diffPaths_nodup_changed {d : Diff} (h : (diffPaths d).Nodup) :
    (keys d.changed).Nodup :=
  h.of_append_right

theorem mem_diffPaths_added {d : Diff} {q : String} (h : q ∈ keys d.added) :
    q ∈ diffPaths d := by
  simp [diffPaths, h]

theorem mem_diffPaths_removed {d : Diff} {q : String} (h : q ∈ keys d.removed) :
    q ∈ diffPaths d := by
  simp [diffPaths, h]

theorem mem_diffPaths_changed {d : Diff} {q : String} (h : q ∈ keys d.changed) :
    q ∈ diffPaths d := by
  simp [diffPaths, h]

theorem mergeDiff_append (acc sub : Diff)
    (hnodup : (diffPaths sub).Nodup)
    (hdisj : ∀ q ∈ diffPaths sub, q ∉ diffPaths acc) :
    mergeDiff acc sub =
      ⟨acc.added ++ sub.added, acc.removed ++ sub.removed, acc.changed ++ sub.changed⟩ := by
  unfold mergeDiff
  have h1 : dictUpdate acc.added sub.added = acc.added ++ sub.added :=
    dictUpdate_append _ _ (diffPaths_nodup_added hnodup)
      (fun k hk hmem => hdisj k (mem_diffPaths_added hk) (mem_diffPaths_added hmem))
  have h2 : dictUpdate acc.removed sub.removed = acc.removed ++ sub.removed :=
    dictUpdate_append _ _ (diffPaths_nodup_removed hnodup)
      (fun k hk hmem => hdisj k (mem_diffPaths_removed hk) (mem_diffPaths_removed hmem))
  have h3 : dictUpdate acc.changed sub.changed = acc.changed ++ sub.changed :=
    dictUpdate_append _ _ (diffPaths_nodup_changed hnodup)
      (fun k hk hmem => hdisj k (mem_diffPaths_changed hk) (mem_diffPaths_changed hmem))
  rw [h1, h2, h3]

theorem diffPaths_concat_perm (acc sub : Diff) :
    List.Perm
      (diffPaths ⟨acc.added ++ sub.added, acc.removed ++ sub.removed,
        acc.changed ++ sub.changed⟩)
      (diffPaths acc ++ diffPaths sub) := by
  rw [List.perm_iff_count]
  intro a
  simp [diffPaths, keys, List.count_append]
  omega

theorem mergeDiff_paths_perm (acc sub : Diff)
    (hnodup : (diffPaths sub).Nodup)
    (hdisj : ∀ q ∈ diffPaths sub, q ∉ diffPaths acc) :
    List.Perm (diffPaths (mergeDiff acc sub)) (diffPaths acc ++ diffPaths sub) := by
  rw [mergeDiff_append acc sub hnodup hdisj]
  exact diffPaths_concat_perm acc sub

/-! ### Folding disjoint children -/

/-- Disjointness of everything anchored below two bases. -/
def BDisj (b1 b2 : String) : Prop :=
  ∀ q1 q2, Based b1 q1 → Based b2 q2 → ¬ q1 = q2

theorem fold_children {α : Type} (anchor : α → String) (F : α → Diff) :
    ∀ (ks : List α) (acc : Diff),
    (∀ x ∈ ks, (diffPaths (F x)).Nodup) →
    (∀ x ∈ ks, ∀ q ∈ diffPaths (F x), Based (anchor x) q) →
    List.Pairwise (fun x y => BDisj (anchor x) (anchor y)) ks →
    (∀ x ∈ ks, ∀ q ∈ diffPaths acc, ∀ q', Based (anchor x) q' → ¬ q = q') →
    (diffPaths acc).Nodup →
    (diffPaths (ks.foldl (fun acc x => mergeDiff acc (F x)) acc)).Nodup
      ∧ ∀ q ∈ diffPaths (ks.foldl (fun acc x => mergeDiff acc (F x)) acc),
          q ∈ diffPaths acc ∨ ∃ x ∈ ks, Based (anchor x) q
  | [], acc, _, _, _, _, hacc => ⟨hacc, fun q hq => Or.inl hq⟩
  | x0 :: ks, acc, hA, hB, hC, hD, hacc => by
      simp only [List.foldl_cons]
      have hA0 := hA x0 (by simp)
      have hB0 := hB x0 (by simp)
      have hdisj0 : ∀ q ∈ diffPaths (F x0), q ∉ diffPaths acc := by
        intro q hq hmem
        exact hD x0 (by simp) q hmem q (hB0 q hq) rfl
      have hperm := mergeDiff_paths_perm acc (F x0) hA0 hdisj0
      have hnodup' : (diffPaths (mergeDiff acc (F x0))).Nodup := by
        rw [hperm.nodup_iff]
        rw [List.nodup_append]
        exact ⟨hacc, hA0, fun q hq hq2 => hdisj0 q hq2 hq⟩
      have hmem' : ∀ q, q ∈ diffPaths (mergeDiff acc (F x0)) ↔
          q ∈ diffPaths acc ∨ q ∈ diffPaths (F x0) := by
        intro q
        rw [hperm.mem_iff, List.mem_append]
      have hCrest := hC.of_cons
      have hCx0 : ∀ y ∈ ks, BDisj (anchor x0) (anchor y) :=
        fun y hy => (List.pairwise_cons.mp hC).1 y hy
      have hD' : ∀ x ∈ ks, ∀ q ∈ diffPaths (mergeDiff acc (F x0)), ∀ q',
          Based (anchor x) q' → ¬ q = q' := by
        intro x hx q hq q' hq'
        rcases (hmem' q).mp hq with h | h
        · exact hD x (by simp [hx]) q h q' hq'
        · exact fun he => (hCx0 x hx) q q' (hB0 q h) hq' he
      obtain ⟨hn, hm⟩ := fold_children anchor F ks (mergeDiff acc (F x0))
        (fun x hx => hA x (by simp [hx])) (fun x hx => hB x (by simp [hx]))
        hCrest hD' hnodup'
      refine ⟨hn, ?_⟩
      intro q hq
      rcases hm q hq with h | ⟨x, hx, hb⟩
      · rcases (hmem' q).mp h with h | h
        · exact Or.inl h
        · exact Or.inr ⟨x0, by simp, hB0 q h⟩
      · exact Or.inr ⟨x, by simp [hx], hb⟩

/-! ### Keys of the direct-entry folds -/

theorem dictChild_inj {p k1 k2 : String} (hk1 : cleanKey k1) (hk2 : cleanKey k2)
    (h : dictChild p k1 = dictChild p k2) : k1 = k2 := by
  by_contra hne
  exact based_dictChild_inj hk1 hk2 (based_self _) (based_self _) hne h

theorem idxChild_inj {p : String} {i j : Nat} (h : idxChild p i = idxChild p j) : i = j := by
  by_contra hne
  exact based_idx_inj (based_self _) (based_self _) hne h

theorem foldl_dictInsert_map {α β : Type} (f : β → String) (g : β → α) :
    ∀ (ks : List β) (acc : List (String × α)),
    (∀ x ∈ ks, f x ∉ keys acc) → ((ks.map f).Nodup) →
    ks.foldl (fun acc x => dictInsert acc (f x) (g x)) acc
      = acc ++ ks.map (fun x => (f x, g x))
  | [], acc, _, _ => by simp
  | x :: ks, acc, hfresh, hnd => by
      simp only [List.foldl_cons]
      rw [dictInsert_append acc (f x) (g x) (hfresh x (by simp))]
      rw [List.map_cons] at hnd
      have hnd0 := List.nodup_cons.mp hnd
      have hfresh' : ∀ y ∈ ks, f y ∉ keys (acc ++ [(f x, g x)]) := by
        intro y hy
        rw [keys_append]
        intro hm
        rcases List.mem_append.mp hm with h | h
        · exact hfresh y (by simp [hy]) h
        · have he : f y = f x := by simpa [keys] using h
          exact hnd0.1 (he ▸ List.mem_map_of_mem f hy)
      rw [foldl_dictInsert_map f g ks _ hfresh' hnd0.2]
      simp

theorem keys_foldl_path (p : String) (hp : edgeOk p) (vf : String → Value)
    (ks : List String) (hclean : ∀ k ∈ ks, cleanKey k) (hnd : ks.Nodup) :
    ks.foldl (fun acc k => dictInsert acc (stripDots (p ++ "." ++ k)) (vf k)) []
      = ks.map (fun k => (dictChild p k, vf k)) := by
  rw [foldl_congr_mem (g := fun acc k => dictInsert acc (dictChild p k) (vf k))
    (fun acc k hk => by rw [stripDots_dictChild p k hp (hclean k hk)])]
  rw [foldl_dictInsert_map (dictChild p) vf ks [] (by simp [keys])
    (hnd.map_on (fun k1 h1 k2 h2 he => dictChild_inj (hclean k1 h1) (hclean k2 h2) he))]
  simp

theorem keys_map_pair {α β : Type} (f : β → String) (g : β → α) (ks : List β) :
    keys (ks.map (fun x => (f x, g x))) = ks.map f := by
  simp [keys, List.map_map]

theorem idxChild_eq (p : String) (i : Nat) :
    p ++ "[" ++ natStr i ++ "]" = idxChild p i := rfl

theorem foldl_idx_path (p : String) (hp : edgeOk p) (vf : Nat → Value)
    (ks : List Nat) (acc : List (String × Value))
    (hnd : ks.Nodup) (hfresh : ∀ i ∈ ks, idxChild p i ∉ keys acc) :
    ks.foldl (fun acc i => dictInsert acc (stripDots (idxChild p i)) (vf i)) acc
      = acc ++ ks.map (fun i => (idxChild p i, vf i)) := by
  rw [foldl_congr_mem (g := fun acc i => dictInsert acc (idxChild p i) (vf i))
    (fun acc i hi => by rw [stripDots_idxChild p i hp])]
  exact foldl_dictInsert_map (idxChild p) vf ks acc hfresh
    (hnd.map_on (fun i h1 j h2 he => idxChild_inj he))

theorem pairwise_fst_ne_of_nodup_map {α : Type} {l : List (Nat × α)}
    (h : (l.map Prod.fst).Nodup) : l.Pairwise (fun x y => ¬ x.1 = y.1) := by
  induction l with
  | nil => exact List.Pairwise.nil
  | cons x xs ih =>
      simp only [List.map_cons, List.nodup_cons] at h
      exact List.Pairwise.cons
        (fun y hy he => h.1 (he ▸ List.mem_map_of_mem Prod.fst hy))
        (ih h.2)

theorem diffPaths_added_append (d : Diff) (t : List (String × Value)) :
    List.Perm (diffPaths ⟨d.added ++ t, d.removed, d.changed⟩) (diffPaths d ++ keys t) := by
  rw [List.perm_iff_count]
  intro x
  simp [diffPaths, keys, List.count_append]
  omega

theorem diffPaths_removed_append (d : Diff) (t : List (String × Value)) :
    List.Perm (diffPaths ⟨d.added, d.removed ++ t, d.changed⟩) (diffPaths d ++ keys t) := by
  rw [List.perm_iff_count]
  intro x
  simp [diffPaths, keys, List.count_append]
  omega

/-! ### The direct-entry block of the mapping case -/

theorem dict_base_clean (p : String) (bl al : List (String × Value))
    (hckb : ∀ k ∈ keys bl, cleanKey k) (hcka : ∀ k ∈ keys al, cleanKey k) :
    (diffPaths
        ⟨(setDiff (keys al) (keys bl)).map (fun k => (dictChild p k, getD al k nullV)),
         (setDiff (keys bl) (keys al)).map (fun k => (dictChild p k, getD bl k nullV)),
         []⟩).Nodup
    ∧ ∀ q ∈ diffPaths
        ⟨(setDiff (keys al) (keys bl)).map (fun k => (dictChild p k, getD al k nullV)),
         (setDiff (keys bl) (keys al)).map (fun k => (dictChild p k, getD bl k nullV)),
         []⟩,
        ∃ k, cleanKey k ∧ q = dictChild p k
          ∧ ((k ∈ keys al ∧ k ∉ keys bl) ∨ (k ∈ keys bl ∧ k ∉ keys al)) := by
  have hpaths : diffPaths
      ⟨(setDiff (keys al) (keys bl)).map (fun k => (dictChild p k, getD al k nullV)),
       (setDiff (keys bl) (keys al)).map (fun k => (dictChild p k, getD bl k nullV)),
       []⟩
      = (setDiff (keys al) (keys bl)).map (dictChild p)
        ++ (setDiff (keys bl) (keys al)).map (dictChild p) := by
    unfold diffPaths
    rw [keys_map_pair, keys_map_pair]
    simp [keys]
  constructor
  · rw [hpaths, List.nodup_append]
    refine ⟨?_, ?_, ?_⟩
    · exact (nodup_setDiff _ _).map_on
        (fun k1 h1 k2 h2 he => dictChild_inj
          (hcka k1 (mem_setDiff.mp h1).1) (hcka k2 (mem_setDiff.mp h2).1) he)
    · exact (nodup_setDiff _ _).map_on
        (fun k1 h1 k2 h2 he => dictChild_inj
          (hckb k1 (mem_setDiff.mp h1).1) (hckb k2 (mem_setDiff.mp h2).1) he)
    · intro q hq1 hq2
      obtain ⟨k1, hk1, he1⟩ := List.mem_map.mp hq1
      obtain ⟨k2, hk2, he2⟩ := List.mem_map.mp hq2
      have := dictChild_inj (hcka k1 (mem_setDiff.mp hk1).1)
        (hckb k2 (mem_setDiff.mp hk2).1) (he1.trans he2.symm)
      rw [this] at hk1
      exact (mem_setDiff.mp hk1).2 (mem_setDiff.mp hk2).1
  · intro q hq
    rw [hpaths] at hq
    rcases List.mem_append.mp hq with h | h
    · obtain ⟨k, hk, he⟩ := List.mem_map.mp h
      exact ⟨k, hcka k (mem_setDiff.mp hk).1, he.symm,
        Or.inl ⟨(mem_setDiff.mp hk).1, (mem_setDiff.mp hk).2⟩⟩
    · obtain ⟨k, hk, he⟩ := List.mem_map.mp h
      exact ⟨k, hckb k (mem_setDiff.mp hk).1, he.symm,
        Or.inr ⟨(mem_setDiff.mp hk).1, (mem_setDiff.mp hk).2⟩⟩

/-! ### The master lemma: clean trees generate pairwise-distinct paths -/

theorem fallback_clean (b a : Value) (p : String) :
    (diffPaths (if pyEq b a then emptyDiff else ⟨[], [], [(p, (b, a))]⟩)).Nodup
      ∧ ∀ q ∈ diffPaths (if pyEq b a then emptyDiff else ⟨[], [], [(p, (b, a))]⟩),
          childShape p q := by
  by_cases h : pyEq b a = true
  · constructor
    · simp [h, diffPaths, emptyDiff, keys]
    · intro q hq
      simp [h, diffPaths, emptyDiff, keys] at hq
  · constructor
    · simp [h, diffPaths, keys]
    · intro q hq
      simp [h, diffPaths, keys] at hq
      exact Or.inl hq

theorem fdAux_clean : ∀ (n : Nat) (b a : Value) (p : String),
    b.size ≤ n → a.size ≤ n → CleanValue b → CleanValue a → edgeOk p →
    (diffPaths (fdAux n b a p)).Nodup
      ∧ ∀ q ∈ diffPaths (fdAux n b a p), childShape p q := by
  intro n
  induction n with
  | zero => intro b a p hb; exact absurd hb (by have := Value.one_le_size b; omega)
  | succ n ih =>
      intro b a p hb ha hcb hca hp
      simp only [fdAux]
      cases b with
      | dict bfs =>
          cases a with
          | dict afs =>
              simp only [fdStep]
              have hckb : ∀ k ∈ keys bfs.toList, cleanKey k :=
                fun k hk => cleanValue_dict_key hcb hk
              have hcka : ∀ k ∈ keys afs.toList, cleanKey k :=
                fun k hk => cleanValue_dict_key hca hk
              rw [keys_foldl_path p hp _ _
                  (fun k hk => hcka k (mem_setDiff.mp hk).1) (nodup_setDiff _ _),
                keys_foldl_path p hp _ _
                  (fun k hk => hckb k (mem_setDiff.mp hk).1) (nodup_setDiff _ _),
                foldl_congr_mem (g := fun acc k => mergeDiff acc
                  (fdAux n (getD bfs.toList k nullV) (getD afs.toList k nullV)
                    (dictChild p k)))
                  (fun acc k hk => by
                    rw [stripDots_dictChild p k hp (hckb k (mem_interKeys.mp hk).1)])]
              obtain ⟨hbase_nodup, hbase_mem⟩ := dict_base_clean p bfs.toList afs.toList hckb hcka
              have hA : ∀ k ∈ interKeys (keys bfs.toList) (keys afs.toList),
                  (diffPaths (fdAux n (getD bfs.toList k nullV) (getD afs.toList k nullV)
                    (dictChild p k))).Nodup ∧
                  ∀ q ∈ diffPaths (fdAux n (getD bfs.toList k nullV)
                      (getD afs.toList k nullV) (dictChild p k)),
                    childShape (dictChild p k) q := by
                intro k hk
                have hkb := (mem_interKeys.mp hk).1
                have hka := (mem_interKeys.mp hk).2
                apply ih
                · have := @size_getD_lt_dict bfs k hkb
                  simp only [Value.size] at this hb
                  omega
                · have := @size_getD_lt_dict afs k hka
                  simp only [Value.size] at this ha
                  omega
                · exact cleanValue_dict_val hcb hkb nullV
                · exact cleanValue_dict_val hca hka nullV
                · exact edgeOk_dictChild p k hp (hckb k hkb)
              obtain ⟨hn, hm⟩ := fold_children (dictChild p)
                (fun k => fdAux n (getD bfs.toList k nullV) (getD afs.toList k nullV)
                  (dictChild p k))
                (interKeys (keys bfs.toList) (keys afs.toList)) _
                (fun k hk => (hA k hk).1)
                (fun k hk q hq => based_of_childShape ((hA k hk).2 q hq)
                  (dictChild_ne_empty p k (hckb k (mem_interKeys.mp hk).1)))
                ((nodup_interKeys _ _).imp_of_mem
                  (fun hk1 hk2 hne => by
                    exact fun q1 q2 h1 h2 => based_dictChild_inj
                      (hckb _ (mem_interKeys.mp hk1).1) (hckb _ (mem_interKeys.mp hk2).1)
                      h1 h2 hne))
                (fun k hk q hq q' hq' he => by
                  obtain ⟨k0, hck0, rfl, hside⟩ := hbase_mem q hq
                  have hne : ¬ k0 = k := by
                    intro hkk
                    rcases hside with ⟨_, hnb⟩ | ⟨_, hna⟩
                    · exact hnb (hkk ▸ (mem_interKeys.mp hk).1)
                    · exact hna (hkk ▸ (mem_interKeys.mp hk).2)
                  exact based_dictChild_inj hck0 (hckb k (mem_interKeys.mp hk).1)
                    (based_self _) hq' hne he)
                hbase_nodup
              refine ⟨hn, ?_⟩
              intro q hq
              rcases hm q hq with h | ⟨k, hk, hbased⟩
              · obtain ⟨k0, hck0, rfl, _⟩ := hbase_mem q h
                exact Or.inr (Or.inl ⟨k0, [], hck0, by simp, Or.inl rfl⟩)
              · exact childShape_of_based_dict (hckb k (mem_interKeys.mp hk).1) hbased
          | list aes => exact fallback_clean _ _ _
          | scalar s => exact fallback_clean _ _ _
          | other m => exact fallback_clean _ _ _
      | list bes =>
          cases a with
          | dict afs => exact fallback_clean _ _ _
          | list aes =>
              simp only [fdStep, idxChild_eq]
              have hzsize : ∀ x : Nat × (Value × Value),
                  x ∈ (bes.toList.zip aes.toList).enum →
                  x.2.1 ∈ bes.toList ∧ x.2.2 ∈ aes.toList ∧
                    x.1 < min bes.toList.length aes.toList.length := by
                intro x hx
                have hx2 : x.2 ∈ bes.toList.zip aes.toList := by
                  have := List.mem_enum_iff_getElem?.mp hx
                  exact List.getElem?_mem this
                have hlt : x.1 < (bes.toList.zip aes.toList).length :=
                  (List.getElem?_eq_some.mp (List.mem_enum_iff_getElem?.mp hx)).1
                rw [List.length_zip bes.toList aes.toList] at hlt
                exact ⟨(List.of_mem_zip hx2).1, (List.of_mem_zip hx2).2, hlt⟩
              have hA : ∀ x : Nat × (Value × Value),
                  x ∈ (bes.toList.zip aes.toList).enum →
                  (diffPaths (fdAux n x.2.1 x.2.2 (idxChild p x.1))).Nodup ∧
                  ∀ q ∈ diffPaths (fdAux n x.2.1 x.2.2 (idxChild p x.1)),
                    childShape (idxChild p x.1) q := by
                intro x hx
                obtain ⟨hxb, hxa, _⟩ := hzsize x hx
                apply ih
                · have := @size_lt_list bes x.2.1 hxb
                  simp only [Value.size] at this hb
                  omega
                · have := @size_lt_list aes x.2.2 hxa
                  simp only [Value.size] at this ha
                  omega
                · exact cleanValue_list_val hcb hxb
                · exact cleanValue_list_val hca hxa
                · exact edgeOk_idxChild p x.1 hp
              have hpair : ((bes.toList.zip aes.toList).enum).Pairwise
                  (fun x y => BDisj (idxChild p x.1) (idxChild p y.1)) := by
                have hnd : ((bes.toList.zip aes.toList).enum.map Prod.fst).Nodup := by
                  rw [List.enum_map_fst]
                  exact List.nodup_range _
                exact (pairwise_fst_ne_of_nodup_map hnd).imp_of_mem
                  (fun hx hy hne q1 q2 h1 h2 => based_idx_inj h1 h2 hne)
              obtain ⟨hbn, hbm⟩ := fold_children (fun x => idxChild p x.1)
                (fun x => fdAux n x.2.1 x.2.2 (idxChild p x.1))
                ((bes.toList.zip aes.toList).enum) emptyDiff
                (fun x hx => (hA x hx).1)
                (fun x hx q hq => based_of_childShape ((hA x hx).2 q hq)
                  (idxChild_ne_empty p x.1))
                hpair
                (fun x hx q hq => by simp [diffPaths, emptyDiff, keys] at hq)
                (by simp [diffPaths, emptyDiff, keys])
              have hbm' : ∀ q ∈ diffPaths
                  (((bes.toList.zip aes.toList).enum).foldl
                    (fun acc x => mergeDiff acc (fdAux n x.2.1 x.2.2 (idxChild p x.1)))
                    emptyDiff),
                  ∃ i, i < min bes.toList.length aes.toList.length
                    ∧ Based (idxChild p i) q := by
                intro q hq
                rcases hbm q hq with h | ⟨x, hx, hbased⟩
                · simp [diffPaths, emptyDiff, keys] at h
                · exact ⟨x.1, (hzsize x hx).2.2, hbased⟩
              by_cases hlen : bes.toList.length < aes.toList.length
              · rw [if_pos hlen]
                have hfresh : ∀ i ∈ List.range' bes.toList.length
                    (aes.toList.length - bes.toList.length),
                    idxChild p i ∉ keys (((bes.toList.zip aes.toList).enum).foldl
                      (fun acc x => mergeDiff acc
                        (fdAux n x.2.1 x.2.2 (idxChild p x.1))) emptyDiff).added := by
                  intro i hi hmem
                  obtain ⟨j, hj, hbased⟩ := hbm' _ (mem_diffPaths_added hmem)
                  have hile : bes.toList.length ≤ i := (List.mem_range'_1.mp hi).1
                  have hij : ¬ j = i := by omega
                  exact based_idx_inj hbased (based_self _) hij rfl
                rw [foldl_idx_path p hp _ _ _ (List.nodup_range' _ _ 1 one_pos) hfresh]
                have hperm := diffPaths_added_append
                  (((bes.toList.zip aes.toList).enum).foldl
                    (fun acc x => mergeDiff acc (fdAux n x.2.1 x.2.2 (idxChild p x.1)))
                    emptyDiff)
                  ((List.range' bes.toList.length
                    (aes.toList.length - bes.toList.length)).map
                      (fun i => (idxChild p i, aes.toList.getD i nullV)))
                constructor
                · rw [hperm.nodup_iff, List.nodup_append, keys_map_pair]
                  refine ⟨hbn, ?_, ?_⟩
                  · exact (List.nodup_range' _ _ 1 one_pos).map_on
                      (fun i _ j _ he => idxChild_inj he)
                  · intro q hq hq2
                    obtain ⟨j, hj, hbased⟩ := hbm' q hq
                    obtain ⟨i, hi, he⟩ := List.mem_map.mp hq2
                    have hile : bes.toList.length ≤ i := (List.mem_range'_1.mp hi).1
                    have hij : ¬ j = i := by omega
                    exact based_idx_inj hbased
                      (show Based (idxChild p i) q by rw [← he]; exact based_self _) hij rfl
                · intro q hq
                  rw [hperm.mem_iff, List.mem_append, keys_map_pair] at hq
                  rcases hq with h | h
                  · obtain ⟨i, _, hbased⟩ := hbm' q h
                    exact childShape_of_based_idx hbased
                  · obtain ⟨i, _, he⟩ := List.mem_map.mp h
                    exact childShape_of_based_idx
                      (show Based (idxChild p i) q by rw [← he]; exact based_self _)
              · rw [if_neg hlen]
                by_cases hlen2 : aes.toList.length < bes.toList.length
                · rw [if_pos hlen2]
                  have hfresh : ∀ i ∈ List.range' aes.toList.length
                      (bes.toList.length - aes.toList.length),
                      idxChild p i ∉ keys (((bes.toList.zip aes.toList).enum).foldl
                        (fun acc x => mergeDiff acc
                          (fdAux n x.2.1 x.2.2 (idxChild p x.1))) emptyDiff).removed := by
                    intro i hi hmem
                    obtain ⟨j, hj, hbased⟩ := hbm' _ (mem_diffPaths_removed hmem)
                    have hile : aes.toList.length ≤ i := (List.mem_range'_1.mp hi).1
                    have hij : ¬ j = i := by omega
                    exact based_idx_inj hbased (based_self _) hij rfl
                  rw [foldl_idx_path p hp _ _ _ (List.nodup_range' _ _ 1 one_pos) hfresh]
                  have hperm := diffPaths_removed_append
                    (((bes.toList.zip aes.toList).enum).foldl
                      (fun acc x => mergeDiff acc (fdAux n x.2.1 x.2.2 (idxChild p x.1)))
                      emptyDiff)
                    ((List.range' aes.toList.length
                      (bes.toList.length - aes.toList.length)).map
                        (fun i => (idxChild p i, bes.toList.getD i nullV)))
                  constructor
                  · rw [hperm.nodup_iff, List.nodup_append, keys_map_pair]
                    refine ⟨hbn, ?_, ?_⟩
                    · exact (List.nodup_range' _ _ 1 one_pos).map_on
                        (fun i _ j _ he => idxChild_inj he)
                    · intro q hq hq2
                      obtain ⟨j, hj, hbased⟩ := hbm' q hq
                      obtain ⟨i, hi, he⟩ := List.mem_map.mp hq2
                      have hile : aes.toList.length ≤ i := (List.mem_range'_1.mp hi).1
                      have hij : ¬ j = i := by omega
                      exact based_idx_inj hbased
                        (show Based (idxChild p i) q by rw [← he]; exact based_self _) hij rfl
                  · intro q hq
                    rw [hperm.mem_iff, List.mem_append, keys_map_pair] at hq
                    rcases hq with h | h
                    · obtain ⟨i, _, hbased⟩ := hbm' q h
                      exact childShape_of_based_idx hbased
                    · obtain ⟨i, _, he⟩ := List.mem_map.mp h
                      exact childShape_of_based_idx
                        (show Based (idxChild p i) q by rw [← he]; exact based_self _)
                · rw [if_neg hlen2]
                  refine ⟨hbn, ?_⟩
                  intro q hq
                  obtain ⟨i, _, hbased⟩ := hbm' q hq
                  exact childShape_of_based_idx hbased
          | scalar s => exact fallback_clean _ _ _
          | other m => exact fallback_clean _ _ _
      | scalar s =>
          cases a with
          | dict afs => exact fallback_clean _ _ _
          | list aes => exact fallback_clean _ _ _
          | scalar t => exact fallback_clean _ _ _
          | other m => exact fallback_clean _ _ _
      | other m =>
          cases a with
          | dict afs => exact fallback_clean _ _ _
          | list aes => exact fallback_clean _ _ _
          | scalar t => exact fallback_clean _ _ _
          | other k => exact fallback_clean _ _ _

/-- The before-tree of the C4 counterexample: `{"a": {}, "a.b": 5}` — one of
its keys contains the path separator `.`. -/
def c4dirtyBefore : Value :=
  Value.dict (Fields.cons "a" (Value.dict Fields.nil)
    (Fields.cons "a.b" (Value.scalar (Scalar.num 5)) Fields.nil))

/-- The after-tree of the C4 counterexample: `{"a": {"b": 1}}`. -/
def c4dirtyAfter : Value :=
  Value.dict (Fields.cons "a"
    (Value.dict (Fields.cons "b" (Value.scalar (Scalar.num 1)) Fields.nil)) Fields.nil)

/-- C4 counterexample: when a mapping key contains the separator `.`, the
same path string can appear in two of the three mappings: diffing
`{"a": {}, "a.b": 5}` against `{"a": {"b": 1}}` puts `"a.b"` both in `added`
(from the recursion into the common key `"a"`) and in `removed` (from the
top-level key `"a.b"`), contradicting "each path string appears as a key in
at most one of the three mappings". -/
theorem C4_counterexample :
    get? (find_differences c4dirtyBefore c4dirtyAfter "").added "a.b"
        = some (Value.scalar (Scalar.num 1))
      ∧ get? (find_differences c4dirtyBefore c4dirtyAfter "").removed "a.b"
        = some (Value.scalar (Scalar.num 5)) :=
  ⟨rfl, rfl⟩

/-- C4 (amended): for every pair of tree-shaped values whose mapping keys are
all nonempty and free of the separator characters `.` and `[`, each path
string appears as a key in at most one of the three mappings of
`diff(before, after)`, and at most once within each mapping. -/
theorem C4_paths_unique_of_clean (b a : Value) (hb : CleanValue b) (ha : CleanValue a) :
    (keys (find_differences b a "").added).Nodup
      ∧ (keys (find_differences b a "").removed).Nodup
      ∧ (keys (find_differences b a "").changed).Nodup
      ∧ (∀ q ∈ keys (find_differences b a "").added,
          q ∉ keys (find_differences b a "").removed
            ∧ q ∉ keys (find_differences b a "").changed)
      ∧ (∀ q ∈ keys (find_differences b a "").removed,
          q ∉ keys (find_differences b a "").changed) := by
  have hmain : (diffPaths (find_differences b a "")).Nodup := by
    unfold find_differences
    rw [fdAux_congr (Value.size b) (Value.size b + Value.size a) b a "" le_rfl (by omega)]
    exact (fdAux_clean (Value.size b + Value.size a) b a "" (by omega) (by omega) hb ha
      edgeOk_empty).1
  have hAR : List.Disjoint (keys (find_differences b a "").added)
      (keys (find_differences b a "").removed) :=
    (List.nodup_append.mp (List.Nodup.of_append_left hmain)).2.2
  have hARC : List.Disjoint (keys (find_differences b a "").added
      ++ keys (find_differences b a "").removed)
      (keys (find_differences b a "").changed) :=
    (List.nodup_append.mp hmain).2.2
  refine ⟨diffPaths_nodup_added hmain, diffPaths_nodup_removed hmain,
    diffPaths_nodup_changed hmain, ?_, ?_⟩
  · intro q hq
    exact ⟨fun hq2 => hAR hq hq2, fun hq2 => hARC (List.mem_append.mpr (Or.inl hq)) hq2⟩
  · intro q hq
    exact fun hq2 => hARC (List.mem_append.mpr (Or.inr hq)) hq2

/-- The clean before-tree `{"a": 1, "b": 2}` of the spec's diff scenario. -/
def c4before : Value :=
  Value.dict (Fields.cons "a" (Value.scalar (Scalar.num 1))
    (Fields.cons "b" (Value.scalar (Scalar.num 2)) Fields.nil))

/-- The clean after-tree `{"b": 3, "c": 4}` of the spec's diff scenario. -/
def c4after : Value :=
  Value.dict (Fields.cons "b" (Value.scalar (Scalar.num 3))
    (Fields.cons "c" (Value.scalar (Scalar.num 4)) Fields.nil))

theorem c4before_clean : CleanValue c4before := by
  refine CleanValue.dict _ ?_ ?_ <;> intro kv hkv <;>
    simp [c4before, Fields.toList] at hkv <;> rcases hkv with rfl | rfl
  · decide
  · decide
  · exact CleanValue.scalar _
  · exact CleanValue.scalar _

theorem c4after_clean : CleanValue c4after := by
  refine CleanValue.dict _ ?_ ?_ <;> intro kv hkv <;>
    simp [c4after, Fields.toList] at hkv <;> rcases hkv with rfl | rfl
  · decide
  · decide
  · exact CleanValue.scalar _
  · exact CleanValue.scalar _

theorem C4_witness :
    (CleanValue c4before ∧ CleanValue c4after)
      ∧ (keys (find_differences c4before c4after "").added).Nodup
      ∧ ∀ q ∈ keys (find_differences c4before c4after "").added,
          q ∉ keys (find_differences c4before c4after "").removed
            ∧ q ∉ keys (find_differences c4before c4after "").changed := by
  have h := C4_paths_unique_of_clean c4before c4after c4before_clean c4after_clean
  exact ⟨⟨c4before_clean, c4after_clean⟩, h.1, h.2.2.2.1⟩

end TerraAnalyser
